import Mathlib

set_option maxRecDepth 100000

/-! Verification of the Terraform state manager
(`terraform-aws/python/terraform_state.py`).

The module is modelled shallowly: JSON documents are an inductive value
type, the Python `json` round trip (`json.dump(..., indent=2)` /
`json.load`) is an executable serializer and recursive-descent parser,
and the S3 interaction is a parameter (the outcome of the blob store
call).  Numbers are modelled as integers; floating point literals are
outside the model. -/

namespace TF

/-- JSON values as handled by the Python json module, with numbers
restricted to integers.  Objects are insertion-ordered association
lists, mirroring Python dictionaries. -/
inductive Json where
  | null : Json
  | bool (b : Bool) : Json
  | num (n : Int) : Json
  | str (s : String) : Json
  | arr (elems : List Json) : Json
  | obj (members : List (String × Json)) : Json

/-- Structural induction for Json, recursing through the nested
lists. -/
def jsonInd {motive : Json → Prop}
    (hnull : motive .null) (hbool : ∀ b, motive (.bool b))
    (hnum : ∀ n, motive (.num n)) (hstr : ∀ s, motive (.str s))
    (harr : ∀ xs, (∀ x ∈ xs, motive x) → motive (.arr xs))
    (hobj : ∀ kvs, (∀ kv ∈ kvs, motive kv.2) → motive (.obj kvs)) :
    ∀ j, motive j
  | .null => hnull
  | .bool b => hbool b
  | .num n => hnum n
  | .str s => hstr s
  | .arr xs => harr xs (fun x hx => jsonInd hnull hbool hnum hstr harr hobj x)
  | .obj kvs => hobj kvs (fun kv hkv => jsonInd hnull hbool hnum hstr harr hobj kv.2)
termination_by j => sizeOf j
decreasing_by
  · have := List.sizeOf_lt_of_mem hx
    simp only [Json.arr.sizeOf_spec]
    omega
  · have h1 := List.sizeOf_lt_of_mem hkv
    have h2 : sizeOf kv.2 < sizeOf kv := by
      obtain ⟨a, b⟩ := kv
      simp only [Prod.mk.sizeOf_spec]
      omega
    simp only [Json.obj.sizeOf_spec]
    omega

mutual
/-- Boolean equality of JSON values. -/
def beqV : Json → Json → Bool
  | .null, .null => true
  | .bool a, .bool b => decide (a = b)
  | .num a, .num b => decide (a = b)
  | .str a, .str b => decide (a = b)
  | .arr xs, .arr ys => beqL xs ys
  | .obj xs, .obj ys => beqM xs ys
  | _, _ => false

/-- Boolean equality of JSON value lists. -/
def beqL : List Json → List Json → Bool
  | [], [] => true
  | x :: xs, y :: ys => beqV x y && beqL xs ys
  | _, _ => false

/-- Boolean equality of JSON member lists. -/
def beqM : List (String × Json) → List (String × Json) → Bool
  | [], [] => true
  | (k1, v1) :: xs, (k2, v2) :: ys => decide (k1 = k2) && beqV v1 v2 && beqM xs ys
  | _, _ => false
end

/-! ## Serialization, mirroring json.dump(value, f, indent=2) -/

/-- The character for a single decimal digit. -/
def digitChar (n : Nat) : Char := Char.ofNat (48 + n)

/-- Decimal digits with a fuel bound (fuel-structural so that the
kernel can evaluate it), most significant first. -/
def natDigitsAux : Nat → Nat → List Char
  | 0, _ => []
  | fuel + 1, n =>
    if n < 10 then [digitChar n]
    else natDigitsAux fuel (n / 10) ++ [digitChar (n % 10)]

/-- Decimal digits of a natural number, most significant first. -/
def natDigits (n : Nat) : List Char := natDigitsAux (n + 1) n

/-- Decimal rendering of an integer, as Python repr of an int. -/
def intChars (n : Int) : List Char :=
  if n < 0 then '-' :: natDigits n.natAbs else natDigits n.natAbs

/-- Lower-case hexadecimal digit, as used by Python \uXXXX escapes. -/
def hexDigitChar (n : Nat) : Char :=
  if n < 10 then Char.ofNat (48 + n) else Char.ofNat (87 + n)

/-- Four-digit lower-case hexadecimal rendering of a code unit. -/
def hex4 (n : Nat) : List Char :=
  [hexDigitChar (n / 4096 % 16), hexDigitChar (n / 256 % 16),
   hexDigitChar (n / 16 % 16), hexDigitChar (n % 16)]

/-- Escape of one character inside a JSON string literal, following
Python json with ensure_ascii=True: quote and backslash get a
backslash escape, the five short control escapes are used, other
characters outside the printable ASCII range become \uXXXX (a
surrogate pair beyond the BMP). -/
def escChar (c : Char) : List Char :=
  if c = '"' then ['\\', '"']
  else if c = '\\' then ['\\', '\\']
  else if c.toNat = 8 then ['\\', 'b']
  else if c.toNat = 9 then ['\\', 't']
  else if c.toNat = 10 then ['\\', 'n']
  else if c.toNat = 12 then ['\\', 'f']
  else if c.toNat = 13 then ['\\', 'r']
  else if c.toNat < 32 then '\\' :: 'u' :: hex4 c.toNat
  else if c.toNat ≤ 126 then [c]
  else if c.toNat < 65536 then '\\' :: 'u' :: hex4 c.toNat
  else '\\' :: 'u' :: hex4 (55296 + (c.toNat - 65536) / 1024) ++
       '\\' :: 'u' :: hex4 (56320 + (c.toNat - 65536) % 1024)

/-- Escape of a whole string body (without the enclosing quotes). -/
def escapeStr : List Char → List Char
  | [] => []
  | c :: cs => escChar c ++ escapeStr cs

/-- Newline followed by the current indentation, as emitted between
items by json.dump with indent=2. -/
def nlIndent (ind : Nat) : List Char := '\n' :: List.replicate ind ' '

mutual
/-- Serialization of one JSON value at indentation level ind,
mirroring json.dump(value, f, indent=2). -/
def serializeVal (ind : Nat) : Json → List Char
  | .num n => intChars n
  | .bool false => ['f', 'a', 'l', 's', 'e']
  | .str s => '"' :: (escapeStr s.data ++ ['"'])
  | .null => ['n', 'u', 'l', 'l']
  | .bool true => ['t', 'r', 'u', 'e']
  | .arr [] => ['[', ']']
  | .arr (x :: xs) =>
      '[' :: (nlIndent (ind + 2) ++ (serializeVal (ind + 2) x ++
        (serializeTail (ind + 2) xs ++ (nlIndent ind ++ [']']))))
  | .obj [] => ['{', '}']
  | .obj (kv :: kvs) =>
      '{' :: (nlIndent (ind + 2) ++ (serializeMember (ind + 2) kv ++
        (serializeMTail (ind + 2) kvs ++ (nlIndent ind ++ ['}']))))

/-- One object member: quoted key, colon, space, value. -/
def serializeMember (ind : Nat) : String × Json → List Char
  | (k, v) => '"' :: (escapeStr k.data ++ ('"' :: ':' :: ' ' :: serializeVal ind v))

/-- Remaining array elements, each preceded by a comma and a newline
plus indentation. -/
def serializeTail (ind : Nat) : List Json → List Char
  | [] => []
  | x :: xs => ',' :: (nlIndent ind ++ (serializeVal ind x ++ serializeTail ind xs))

/-- Remaining object members, each preceded by a comma and a newline
plus indentation. -/
def serializeMTail (ind : Nat) : List (String × Json) → List Char
  | [] => []
  | kv :: kvs => ',' :: (nlIndent ind ++ (serializeMember ind kv ++ serializeMTail ind kvs))
end

/-- Top-level serialization: the byte content json.dump writes. -/
def serialize (j : Json) : List Char := serializeVal 0 j

/-! ## Parsing, mirroring json.load -/

/-- JSON whitespace. -/
def isWsChar (c : Char) : Bool := c = ' ' || c = '\t' || c = '\n' || c = '\r'

/-- Skip leading JSON whitespace. -/
def skipWs : List Char → List Char
  | [] => []
  | c :: cs => if isWsChar c then skipWs cs else c :: cs

/-- Value of one hexadecimal digit, either case. -/
def hexVal (c : Char) : Option Nat :=
  if '0' ≤ c ∧ c ≤ '9' then some (c.toNat - 48)
  else if 'a' ≤ c ∧ c ≤ 'f' then some (c.toNat - 87)
  else if 'A' ≤ c ∧ c ≤ 'F' then some (c.toNat - 55)
  else none

/-- Four hexadecimal digits. -/
def parseHex4 : List Char → Option (Nat × List Char)
  | c1 :: c2 :: c3 :: c4 :: rest =>
    match hexVal c1, hexVal c2, hexVal c3, hexVal c4 with
    | some a, some b, some c, some d => some (a * 4096 + b * 256 + c * 16 + d, rest)
    | _, _, _, _ => none
  | _ => none

/-- One escape sequence after a backslash.  Surrogate pairs are
combined; a lone surrogate is rejected (Python would keep it, but such
a character is not a Unicode scalar value and never arises from
serializing). -/
def parseEsc : List Char → Option (Char × List Char)
  | [] => none
  | c :: rest =>
    if c = '"' then some ('"', rest)
    else if c = '\\' then some ('\\', rest)
    else if c = '/' then some ('/', rest)
    else if c = 'b' then some (Char.ofNat 8, rest)
    else if c = 'f' then some (Char.ofNat 12, rest)
    else if c = 'n' then some (Char.ofNat 10, rest)
    else if c = 'r' then some (Char.ofNat 13, rest)
    else if c = 't' then some (Char.ofNat 9, rest)
    else if c = 'u' then
      match parseHex4 rest with
      | none => none
      | some (n, r) =>
        if 55296 ≤ n ∧ n ≤ 56319 then
          match r with
          | '\\' :: 'u' :: r2 =>
            match parseHex4 r2 with
            | some (m, r3) =>
              if 56320 ≤ m ∧ m ≤ 57343 then
                some (Char.ofNat (65536 + (n - 55296) * 1024 + (m - 56320)), r3)
              else none
            | none => none
          | _ => none
        else if 56320 ≤ n ∧ n ≤ 57343 then none
        else some (Char.ofNat n, r)
    else none

/-- Body of a string literal after the opening quote, with a fuel
bound; literal control characters are rejected (strict mode). -/
def parseStrBody : Nat → List Char → Option (List Char × List Char)
  | 0, _ => none
  | _ + 1, [] => none
  | fuel + 1, c :: rest =>
    if c = '"' then some ([], rest)
    else if c = '\\' then
      match parseEsc rest with
      | none => none
      | some (e, r) =>
        match parseStrBody fuel r with
        | none => none
        | some (s, r2) => some (e :: s, r2)
    else if c.toNat < 32 then none
    else
      match parseStrBody fuel rest with
      | none => none
      | some (s, r2) => some (c :: s, r2)

/-- Greedily consume decimal digits onto an accumulator. -/
def parseDigits : Nat → List Char → Nat × List Char
  | acc, [] => (acc, [])
  | acc, c :: cs =>
    if c.isDigit then parseDigits (acc * 10 + (c.toNat - 48)) cs else (acc, c :: cs)

/-- An unsigned JSON integer: 0, or a nonzero digit followed by
digits (leading zeros are not absorbed, as in the json number
grammar). -/
def parseNum : List Char → Option (Nat × List Char)
  | [] => none
  | c :: cs =>
    if c = '0' then some (0, cs)
    else if c.isDigit then some (parseDigits (c.toNat - 48) cs) else none

/-- Python dict insertion: replace the value in place when the key is
already present, otherwise append. -/
def insertKV (acc : List (String × Json)) (k : String) (v : Json) : List (String × Json) :=
  match acc with
  | [] => [(k, v)]
  | (k0, v0) :: rest => if k0 = k then (k0, v) :: rest else (k0, v0) :: insertKV rest k v

/-- Building a dict from parsed key/value pairs in order: a duplicate
key keeps its first position and takes the last value, as in Python. -/
def collapse (l : List (String × Json)) : List (String × Json) :=
  l.foldl (fun acc kv => insertKV acc kv.1 kv.2) []

mutual
/-- One JSON value (after optional whitespace), with a fuel bound on
nesting.  Mirrors the pure-Python json scanner with numbers restricted
to integers. -/
def parseVal : Nat → List Char → Option (Json × List Char)
  | 0, _ => none
  | fuel + 1, cs =>
    match skipWs cs with
    | 'n' :: 'u' :: 'l' :: 'l' :: rest => some (.null, rest)
    | 't' :: 'r' :: 'u' :: 'e' :: rest => some (.bool true, rest)
    | 'f' :: 'a' :: 'l' :: 's' :: 'e' :: rest => some (.bool false, rest)
    | '"' :: rest =>
      match parseStrBody (rest.length + 1) rest with
      | none => none
      | some (s, r) => some (.str (String.mk s), r)
    | '-' :: rest =>
      match parseNum rest with
      | none => none
      | some (n, r) => some (.num (-(n : Int)), r)
    | '[' :: rest =>
      match skipWs rest with
      | ']' :: r => some (.arr [], r)
      | _ =>
        match parseElems fuel rest with
        | none => none
        | some (xs, r) => some (.arr xs, r)
    | '{' :: rest =>
      match skipWs rest with
      | '}' :: r => some (.obj [], r)
      | _ =>
        match parseMembers fuel rest with
        | none => none
        | some (kvs, r) => some (.obj (collapse kvs), r)
    | c :: rest =>
      if c.isDigit then
        match parseNum (c :: rest) with
        | none => none
        | some (n, r) => some (.num (n : Int), r)
      else none
    | [] => none

/-- One or more array elements separated by commas, up to the closing
bracket. -/
def parseElems : Nat → List Char → Option (List Json × List Char)
  | 0, _ => none
  | fuel + 1, cs =>
    match parseVal fuel cs with
    | none => none
    | some (v, r) =>
      match skipWs r with
      | ',' :: r2 =>
        (match parseElems fuel r2 with
         | none => none
         | some (vs, r3) => some (v :: vs, r3))
      | ']' :: r2 => some ([v], r2)
      | _ => none

/-- One or more object members separated by commas, up to the closing
brace. -/
def parseMembers : Nat → List Char → Option (List (String × Json) × List Char)
  | 0, _ => none
  | fuel + 1, cs =>
    match skipWs cs with
    | '"' :: r0 =>
      (match parseStrBody (r0.length + 1) r0 with
       | none => none
       | some (k, r1) =>
         match skipWs r1 with
         | ':' :: r2 =>
           (match parseVal fuel r2 with
            | none => none
            | some (v, r3) =>
              match skipWs r3 with
              | ',' :: r4 =>
                (match parseMembers fuel r4 with
                 | none => none
                 | some (kvs, r5) => some ((String.mk k, v) :: kvs, r5))
              | '}' :: r4 => some ([(String.mk k, v)], r4)
              | _ => none)
         | _ => none)
    | _ => none
end

/-- Top-level parse: one value, then only trailing whitespace, as
json.load.  Returns none where Python raises JSONDecodeError. -/
def parse (cs : List Char) : Option Json :=
  match parseVal (cs.length + 1) cs with
  | none => none
  | some (v, r) =>
    match skipWs r with
    | [] => some v
    | _ :: _ => none

/-! ## The Python-value semantics the manager's code relies on -/

/-- Exceptions the manager's own code can raise (the blob store's
exceptions are a separate parameter). -/
inductive PyErr where
  | keyError (k : String) : PyErr
  | typeError : PyErr
  | attributeError : PyErr
deriving DecidableEq

/-- Python truthiness of a JSON value: None, False, 0, and empty
containers and strings are falsy. -/
def truthy : Json → Bool
  | .null => false
  | .bool b => b
  | .num n => decide (n ≠ 0)
  | .str s => !s.isEmpty
  | .arr xs => !xs.isEmpty
  | .obj kvs => !kvs.isEmpty

/-- Python d.get(k, dflt): AttributeError when the receiver is not a
dict, otherwise the stored value or the default. -/
def dictGet (j : Json) (k : String) (dflt : Json) : Except PyErr Json :=
  match j with
  | .obj kvs =>
    match kvs.lookup k with
    | some v => .ok v
    | none => .ok dflt
  | _ => .error .attributeError

/-- Python subscript d[k]: KeyError when the key is missing,
TypeError when the receiver is not a dict. -/
def pyIndex (j : Json) (k : String) : Except PyErr Json :=
  match j with
  | .obj kvs =>
    match kvs.lookup k with
    | some v => .ok v
    | none => .error (.keyError k)
  | _ => .error .typeError

/-- Python iteration over a value: a list yields its elements, a dict
its keys, a string its characters (as one-character strings); other
values raise TypeError. -/
def pyIter (j : Json) : Except PyErr (List Json) :=
  match j with
  | .arr xs => .ok xs
  | .obj kvs => .ok (kvs.map (fun kv => Json.str kv.1))
  | .str s => .ok (s.data.map (fun c => Json.str (String.mk [c])))
  | _ => .error .typeError

/-! ## TerraformStateManager

The S3 client is a collaborator; each method that touches it takes the
outcome of the corresponding call as a parameter: fetch is what
download_fileobj produced (the raw bytes, or an exception message) and
put is what upload_file does with the serialized bytes. -/

/-- The flat per-(block, instance) record built in the get_resources
loop: a dict with keys type, name, provider, state, dependencies
(field rtype stands for the 'type' key, which is a Lean keyword). -/
structure FlatResource where
  rtype : Json
  name : Json
  provider : Json
  state : Json
  dependencies : Json

/-- download_state: fetch the object, json.load it; every exception
(transport and parse alike) is caught, logged and turned into None. -/
def download_state (fetch : Except String (List Char)) : Option Json :=
  match fetch with
  | .error _ => none
  | .ok bs => parse bs

/-- The bytes upload_state writes: json.dump(state_data, f, indent=2). -/
def upload_payload (state_data : Json) : List Char := serialize state_data

/-- upload_state: serialize and put; an exception from the client is
caught and reported as False, success as True.  The manager never
mutates the document, so the caller's state_data is returned
unchanged alongside the flag. -/
def upload_state (state_data : Json) (put : List Char → Except String Unit) :
    Bool × Json :=
  match put (upload_payload state_data) with
  | .ok _ => (true, state_data)
  | .error _ => (false, state_data)

/-- The body of the inner loop of get_resources for one resource
block: one record per instance, reading type, name and provider with
subscripts (KeyError when absent) and attributes and depends_on with
.get defaults. -/
def flattenInstances (resource : Json) : List Json → Except PyErr (List FlatResource)
  | [] => .ok []
  | inst :: rest => do
    let t ← pyIndex resource ("type")
    let n ← pyIndex resource ("name")
    let p ← pyIndex resource ("provider")
    let attrs ← dictGet inst ("attributes") (Json.obj [])
    let deps ← dictGet resource ("depends_on") (Json.arr [])
    let others ← flattenInstances resource rest
    .ok ({ rtype := t, name := n, provider := p, state := attrs,
           dependencies := deps } :: others)

/-- The outer loop of get_resources over state_data['resources']. -/
def flattenBlocks : List Json → Except PyErr (List FlatResource)
  | [] => .ok []
  | resource :: rest => do
    let instancesVal ← dictGet resource ("instances") (Json.arr [])
    let instanceList ← pyIter instancesVal
    let entries ← flattenInstances resource instanceList
    let others ← flattenBlocks rest
    .ok (entries ++ others)

/-- The resource-flattening part of get_resources, applied to a
(truthy) parsed state document. -/
def flattenResources (state_data : Json) : Except PyErr (List FlatResource) := do
  let resourcesVal ← dictGet state_data ("resources") (Json.arr [])
  let resourceList ← pyIter resourcesVal
  flattenBlocks resourceList

/-- get_resources: download, return [] when the result is falsy
(None or an empty document), otherwise flatten.  Errors raised by the
flattening loop itself propagate to the caller. -/
def get_resources (fetch : Except String (List Char)) :
    Except PyErr (List FlatResource) :=
  match download_state fetch with
  | none => .ok []
  | some state_data =>
    if truthy state_data then flattenResources state_data else .ok []

/-- get_resource_by_type: the flat records whose 'type' equals the
argument (Python ==, which on a string argument is exact string
equality). -/
def get_resource_by_type (resource_type : String) (fetch : Except String (List Char)) :
    Except PyErr (List FlatResource) :=
  (get_resources fetch).map
    (List.filter (fun r => beqV r.rtype (Json.str resource_type)))

/-- get_resource_by_name: the first flat record whose 'name' equals
the argument, None when there is none. -/
def get_resource_by_name (resource_name : String) (fetch : Except String (List Char)) :
    Except PyErr (Option FlatResource) :=
  (get_resources fetch).map
    (List.find? (fun r => beqV r.name (Json.str resource_name)))

/-- list_outputs: download, return {} when the result is falsy,
otherwise state_data.get('outputs', {}). -/
def list_outputs (fetch : Except String (List Char)) : Except PyErr Json :=
  match download_state fetch with
  | none => .ok (Json.obj [])
  | some state_data =>
    if truthy state_data then dictGet state_data ("outputs") (Json.obj [])
    else .ok (Json.obj [])

/-! ## Derived notions used to state the contracts -/

/-- Value of a top-level key of a JSON object (none for non-objects
or absent keys). -/
def getKey (j : Json) (k : String) : Option Json :=
  match j with
  | .obj kvs => kvs.lookup k
  | _ => none

/-- Whether a value is a JSON object. -/
def isObj : Json → Bool
  | .obj _ => true
  | _ => false

/-- The instance list of a resource block: the value of 'instances'
when it is an array, empty when the key is absent. -/
def blockInstances (b : Json) : List Json :=
  match getKey b ("instances") with
  | some (.arr is) => is
  | _ => []

/-- A resource block shaped as in the persisted state layout: a dict
whose 'instances' value, when present, is a list of dicts.  No
requirement yet on the identifying keys. -/
def shapedBlock (b : Json) : Bool :=
  match b with
  | .obj kvs =>
    (match kvs.lookup ("instances") with
     | none => true
     | some (.arr is) => is.all isObj
     | some _ => false)
  | _ => false

/-- The block carries the three identifying keys that the
get_resources loop reads with subscripts. -/
def hasKeys (b : Json) : Bool :=
  (getKey b ("type")).isSome && (getKey b ("name")).isSome &&
    (getKey b ("provider")).isSome

/-- A fully well-shaped block: shaped and carrying the keys. -/
def goodBlock (b : Json) : Bool := shapedBlock b && hasKeys b

/-- The flat record the loop builds for one block and one instance;
the defaults mirror the .get calls in the source. -/
def mkFlat (b inst : Json) : FlatResource :=
  { rtype := (getKey b ("type")).getD Json.null
  , name := (getKey b ("name")).getD Json.null
  , provider := (getKey b ("provider")).getD Json.null
  , state := (getKey inst ("attributes")).getD (Json.obj [])
  , dependencies := (getKey b ("depends_on")).getD (Json.arr []) }

mutual
/-- Well-formedness of an in-memory document: every object has
pairwise distinct keys, as any Python dict does.  Every value built
by json.load satisfies this. -/
def wfV : Json → Bool
  | .null => true
  | .bool _ => true
  | .num _ => true
  | .str _ => true
  | .arr xs => wfL xs
  | .obj kvs => decide ((kvs.map Prod.fst).Nodup) && wfM kvs

/-- Well-formedness of each value of a list. -/
def wfL : List Json → Bool
  | [] => true
  | x :: xs => wfV x && wfL xs

/-- Well-formedness of each value of a member list. -/
def wfM : List (String × Json) → Bool
  | [] => true
  | kv :: kvs => wfV kv.2 && wfM kvs
end

mutual
/-- Parser fuel needed for one value. -/
def sizeV : Json → Nat
  | .null => 1
  | .bool _ => 1
  | .num _ => 1
  | .str _ => 1
  | .arr xs => sizeL xs + 1
  | .obj kvs => sizeM kvs + 1

/-- Parser fuel needed for a list of array elements. -/
def sizeL : List Json → Nat
  | [] => 0
  | x :: xs => sizeV x + sizeL xs + 1

/-- Parser fuel needed for a list of object members. -/
def sizeM : List (String × Json) → Nat
  | [] => 0
  | kv :: kvs => sizeV kv.2 + sizeM kvs + 1
end

/-- The first character, if any, is not a decimal digit (the condition
under which a serialized number is parsed back without absorbing
following text). -/
def noDigitHead : List Char → Bool
  | [] => true
  | c :: _ => !c.isDigit

/-! ## Concrete documents used to instantiate the contracts -/

/-- The resource block of the specification's end-to-end example. -/
def blockW1 : Json :=
  Json.obj [("type", Json.str ("bucket")), ("name", Json.str ("logs")),
    ("provider", Json.str ("p")),
    ("instances", Json.arr [Json.obj [("attributes",
      Json.obj [("id", Json.str ("logs-1"))])]]),
    ("depends_on", Json.arr [])]

/-- Top-level members of the example document. -/
def kvsW1 : List (String × Json) :=
  [("resources", Json.arr [blockW1]),
   ("outputs", Json.obj [("logs_arn", Json.obj [("value", Json.str ("arn:x:logs"))])])]

/-- The end-to-end example document of the specification. -/
def docW1 : Json := Json.obj kvsW1

/-- The flat record list the example document flattens to. -/
def rsW1 : List FlatResource :=
  [{ rtype := Json.str ("bucket"), name := Json.str ("logs"),
     provider := Json.str ("p"),
     state := Json.obj [("id", Json.str ("logs-1"))],
     dependencies := Json.arr [] }]

/-- Top-level members of a document with two resource blocks that
share the name x under different types. -/
def kvsW5 : List (String × Json) :=
  [("resources", Json.arr [
    Json.obj [("type", Json.str ("t1")), ("name", Json.str ("x")),
      ("provider", Json.str ("p1")), ("instances", Json.arr [Json.obj []])],
    Json.obj [("type", Json.str ("t2")), ("name", Json.str ("x")),
      ("provider", Json.str ("p2")), ("instances", Json.arr [Json.obj []])]]),
   ("outputs", Json.obj [])]

/-- A document with two resource blocks sharing a name. -/
def docW5 : Json := Json.obj kvsW5

/-- The flat records of docW5, in document order. -/
def rsW5 : List FlatResource :=
  [{ rtype := Json.str ("t1"), name := Json.str ("x"),
     provider := Json.str ("p1"), state := Json.obj [],
     dependencies := Json.arr [] },
   { rtype := Json.str ("t2"), name := Json.str ("x"),
     provider := Json.str ("p2"), state := Json.obj [],
     dependencies := Json.arr [] }]

/-- A document carrying unknown top-level fields (format version,
serial, lineage) besides the two known ones. -/
def docW9 : Json :=
  Json.obj [("version", Json.num 4), ("serial", Json.num 12),
    ("lineage", Json.str ("abc-123")), ("resources", Json.arr []),
    ("outputs", Json.obj [])]

/-- A document whose single resource block lacks type, name and
provider and has no instances. -/
def docB10 : Json :=
  Json.obj [("resources", Json.arr [Json.obj [("instances", Json.arr [])]])]

/-- Top-level members of a document whose single resource block lacks
the identifying keys but has one instance. -/
def kvsE10 : List (String × Json) :=
  [("resources", Json.arr [Json.obj [("instances", Json.arr [Json.obj []])]])]

/-- The document over kvsE10. -/
def docE10 : Json := Json.obj kvsE10

/-! ## Whitespace lemmas -/

theorem skipWs_cons_of_neg {c : Char} (cs : List Char) (h : isWsChar c = false) :
    skipWs (c :: cs) = c :: cs := by
  simp [skipWs, h]

theorem skipWs_append_ws (ws cs : List Char) (h : ∀ c ∈ ws, isWsChar c = true) :
    skipWs (ws ++ cs) = skipWs cs := by
  induction ws with
  | nil => simp
  | cons c ws ih =>
    simp only [List.cons_append, skipWs, h c (by simp), if_true]
    exact ih (fun d hd => h d (by simp [hd]))

theorem nlIndent_ws (ind : Nat) : ∀ c ∈ nlIndent ind, isWsChar c = true := by
  intro c hc
  simp only [nlIndent, List.mem_cons] at hc
  rcases hc with rfl | hc
  · decide
  · rw [List.eq_of_mem_replicate hc]
    decide

theorem skipWs_nlIndent (ind : Nat) (cs : List Char) :
    skipWs (nlIndent ind ++ cs) = skipWs cs :=
  skipWs_append_ws _ _ (nlIndent_ws ind)

theorem parseVal_ws (fuel : Nat) (ws cs : List Char) (h : ∀ c ∈ ws, isWsChar c = true) :
    parseVal fuel (ws ++ cs) = parseVal fuel cs := by
  cases fuel with
  | zero => rfl
  | succ f =>
    simp only [parseVal, skipWs_append_ws ws cs h]

theorem parseElems_ws (fuel : Nat) (ws cs : List Char) (h : ∀ c ∈ ws, isWsChar c = true) :
    parseElems fuel (ws ++ cs) = parseElems fuel cs := by
  cases fuel with
  | zero => rfl
  | succ f =>
    simp only [parseElems, parseVal_ws f ws cs h]

theorem parseMembers_ws (fuel : Nat) (ws cs : List Char) (h : ∀ c ∈ ws, isWsChar c = true) :
    parseMembers fuel (ws ++ cs) = parseMembers fuel cs := by
  cases fuel with
  | zero => rfl
  | succ f =>
    simp only [parseMembers, skipWs_append_ws ws cs h]

/-! ## Decimal digit lemmas -/

theorem digitChar_isDigit : ∀ d, d < 10 → (digitChar d).isDigit = true := by decide

theorem digitChar_toNat : ∀ d, d < 10 → (digitChar d).toNat = 48 + d := by decide

theorem digitChar_ne_zero : ∀ d, d < 10 → 1 ≤ d → digitChar d ≠ '0' := by decide

theorem isDigit_not_ws {c : Char} (h : c.isDigit = true) : isWsChar c = false := by
  have h1 : c ≠ ' ' := by rintro rfl; exact absurd h (by decide)
  have h2 : c ≠ '\t' := by rintro rfl; exact absurd h (by decide)
  have h3 : c ≠ '\n' := by rintro rfl; exact absurd h (by decide)
  have h4 : c ≠ '\r' := by rintro rfl; exact absurd h (by decide)
  simp [isWsChar, h1, h2, h3, h4]

theorem natDigitsAux_irrel :
    ∀ n f1 f2, n < f1 → n < f2 → natDigitsAux f1 n = natDigitsAux f2 n := by
  intro n
  induction n using Nat.strong_induction_on with
  | _ n ih =>
    intro f1 f2 h1 h2
    match f1, f2 with
    | g1 + 1, g2 + 1 =>
      simp only [natDigitsAux]
      by_cases hn : n < 10
      · simp [hn]
      · simp only [hn, if_false]
        rw [ih (n / 10) (by omega) g1 g2 (by omega) (by omega)]

theorem natDigits_unfold (n : Nat) :
    natDigits n =
      if n < 10 then [digitChar n]
      else natDigits (n / 10) ++ [digitChar (n % 10)] := by
  show natDigitsAux (n + 1) n = _
  rw [show natDigitsAux (n + 1) n =
    (if n < 10 then [digitChar n] else natDigitsAux n (n / 10) ++ [digitChar (n % 10)])
    from rfl]
  by_cases hn : n < 10
  · simp [hn]
  · simp only [hn, if_false]
    rw [natDigitsAux_irrel (n / 10) n (n / 10 + 1) (by omega) (by omega)]
    rfl

theorem natDigits_all_digit (n : Nat) : ∀ c ∈ natDigits n, c.isDigit = true := by
  induction n using Nat.strong_induction_on with
  | _ n ih =>
    rw [natDigits_unfold]
    by_cases hn : n < 10
    · simp only [hn, if_true]
      intro c hc
      rw [List.mem_singleton] at hc
      subst hc
      exact digitChar_isDigit n hn
    · simp only [hn, if_false]
      intro c hc
      rcases List.mem_append.mp hc with h | h
      · exact ih (n / 10) (by omega) c h
      · rw [List.mem_singleton] at h
        subst h
        exact digitChar_isDigit _ (by omega)

theorem natDigits_head (n : Nat) :
    ∃ c cs, natDigits n = c :: cs ∧ c.isDigit = true ∧ (1 ≤ n → c ≠ '0') := by
  induction n using Nat.strong_induction_on with
  | _ n ih =>
    rw [natDigits_unfold]
    by_cases hn : n < 10
    · exact ⟨digitChar n, [], by simp [hn], digitChar_isDigit n hn,
        fun h1 => digitChar_ne_zero n hn h1⟩
    · obtain ⟨c, cs, heq, hd, hz⟩ := ih (n / 10) (by omega)
      exact ⟨c, cs ++ [digitChar (n % 10)], by simp [hn, heq], hd,
        fun _ => hz (by omega)⟩

theorem foldl_natDigits (n : Nat) : ∀ acc : Nat,
    (natDigits n).foldl (fun a c => a * 10 + (c.toNat - 48)) acc =
      acc * 10 ^ (natDigits n).length + n := by
  induction n using Nat.strong_induction_on with
  | _ n ih =>
    intro acc
    rw [natDigits_unfold]
    by_cases hn : n < 10
    · simp [hn, digitChar_toNat n hn]
    · simp only [hn, if_false, List.foldl_append, List.foldl_cons, List.foldl_nil,
        List.length_append, List.length_cons, List.length_nil]
      rw [ih (n / 10) (by omega)]
      rw [digitChar_toNat (n % 10) (by omega)]
      rw [Nat.zero_add, pow_succ, ← mul_assoc]
      have hdm := Nat.div_add_mod n 10
      set B := acc * 10 ^ (natDigits (n / 10)).length with hB
      omega

theorem parseDigits_append (ds : List Char) (hd : ∀ c ∈ ds, c.isDigit = true) :
    ∀ rest, noDigitHead rest = true → ∀ acc,
      parseDigits acc (ds ++ rest) =
        (ds.foldl (fun a c => a * 10 + (c.toNat - 48)) acc, rest) := by
  induction ds with
  | nil =>
    intro rest hrest acc
    simp only [List.nil_append, List.foldl_nil]
    cases rest with
    | nil => rfl
    | cons c cs =>
      simp only [noDigitHead, Bool.not_eq_true'] at hrest
      simp [parseDigits, hrest]
  | cons c ds ih =>
    intro rest hrest acc
    simp only [List.cons_append, List.foldl_cons]
    simp only [parseDigits, hd c (by simp), if_true]
    exact ih (fun d hdd => hd d (by simp [hdd])) rest hrest _

theorem parseNum_natDigits (n : Nat) (rest : List Char) (h : noDigitHead rest = true) :
    parseNum (natDigits n ++ rest) = some (n, rest) := by
  by_cases h0 : n = 0
  · subst h0
    rw [show natDigits 0 = ['0'] from by decide]
    simp [parseNum]
  · obtain ⟨c, cs, heq, hcd, hcz⟩ := natDigits_head n
    have hcz' : c ≠ '0' := hcz (by omega)
    rw [heq]
    simp only [List.cons_append, parseNum, if_neg hcz', hcd, if_true]
    have hall := natDigits_all_digit n
    rw [parseDigits_append cs (fun d hdd => hall d (by rw [heq]; simp [hdd])) rest h]
    have hfold := foldl_natDigits n 0
    rw [heq] at hfold
    simp only [List.foldl_cons, Nat.zero_mul, Nat.zero_add] at hfold
    rw [hfold]

/-! ## String escape lemmas -/

theorem hexVal_hexDigitChar : ∀ m, m < 16 → hexVal (hexDigitChar m) = some m := by decide

theorem parseHex4_hex4 (n : Nat) (h : n < 65536) (rest : List Char) :
    parseHex4 (hex4 n ++ rest) = some (n, rest) := by
  simp only [hex4, List.cons_append, List.nil_append]
  simp only [parseHex4]
  rw [hexVal_hexDigitChar _ (Nat.mod_lt _ (by omega)),
      hexVal_hexDigitChar _ (Nat.mod_lt _ (by omega)),
      hexVal_hexDigitChar _ (Nat.mod_lt _ (by omega)),
      hexVal_hexDigitChar _ (Nat.mod_lt _ (by omega))]
  exact congrArg (fun m => some (m, rest)) (by omega :
    n / 4096 % 16 * 4096 + n / 256 % 16 * 256 + n / 16 % 16 * 16 + n % 16 = n)

theorem char_valid_nat (c : Char) :
    c.toNat < 55296 ∨ (57343 < c.toNat ∧ c.toNat < 1114112) := c.valid

/-- Unfolding of the \u escape branch of parseEsc. -/
theorem parseEsc_u (tl : List Char) : parseEsc ('u' :: tl) =
    (match parseHex4 tl with
     | none => none
     | some (n, r) =>
       if 55296 ≤ n ∧ n ≤ 56319 then
         match r with
         | '\\' :: 'u' :: r2 =>
           match parseHex4 r2 with
           | some (m, r3) =>
             if 56320 ≤ m ∧ m ≤ 57343 then
               some (Char.ofNat (65536 + (n - 55296) * 1024 + (m - 56320)), r3)
             else none
           | none => none
         | _ => none
       else if 56320 ≤ n ∧ n ≤ 57343 then none
       else some (Char.ofNat n, r)) := rfl

theorem escChar_spec (c : Char) :
    (escChar c = [c] ∧ c ≠ '"' ∧ c ≠ '\\' ∧ 32 ≤ c.toNat) ∨
    (∃ tl, escChar c = '\\' :: tl ∧
      ∀ rest, parseEsc (tl ++ rest) = some (c, rest)) := by
  by_cases hq : c = '"'
  · subst hq
    exact Or.inr ⟨['"'], rfl, fun rest => rfl⟩
  by_cases hb : c = '\\'
  · subst hb
    exact Or.inr ⟨['\\'], rfl, fun rest => rfl⟩
  by_cases h8 : c.toNat = 8
  · have hc : c = Char.ofNat 8 := by rw [← Char.ofNat_toNat c, h8]
    subst hc
    exact Or.inr ⟨['b'], rfl, fun rest => rfl⟩
  by_cases h9 : c.toNat = 9
  · have hc : c = Char.ofNat 9 := by rw [← Char.ofNat_toNat c, h9]
    subst hc
    exact Or.inr ⟨['t'], rfl, fun rest => rfl⟩
  by_cases h10 : c.toNat = 10
  · have hc : c = Char.ofNat 10 := by rw [← Char.ofNat_toNat c, h10]
    subst hc
    exact Or.inr ⟨['n'], rfl, fun rest => rfl⟩
  by_cases h12 : c.toNat = 12
  · have hc : c = Char.ofNat 12 := by rw [← Char.ofNat_toNat c, h12]
    subst hc
    exact Or.inr ⟨['f'], rfl, fun rest => rfl⟩
  by_cases h13 : c.toNat = 13
  · have hc : c = Char.ofNat 13 := by rw [← Char.ofNat_toNat c, h13]
    subst hc
    exact Or.inr ⟨['r'], rfl, fun rest => rfl⟩
  by_cases h32 : c.toNat < 32
  · refine Or.inr ⟨'u' :: hex4 c.toNat, ?_, ?_⟩
    · simp only [escChar, if_neg hq, if_neg hb, if_neg h8, if_neg h9, if_neg h10,
        if_neg h12, if_neg h13, if_pos h32]
    · intro rest
      simp only [List.cons_append]
      rw [parseEsc_u]
      simp only [parseHex4_hex4 c.toNat (by omega) rest]
      rw [if_neg (show ¬(55296 ≤ c.toNat ∧ c.toNat ≤ 56319) by omega),
        if_neg (show ¬(56320 ≤ c.toNat ∧ c.toNat ≤ 57343) by omega), Char.ofNat_toNat]
  by_cases h126 : c.toNat ≤ 126
  · exact Or.inl ⟨by simp only [escChar, if_neg hq, if_neg hb, if_neg h8, if_neg h9,
      if_neg h10, if_neg h12, if_neg h13, if_neg h32, if_pos h126], hq, hb, by omega⟩
  by_cases hbmp : c.toNat < 65536
  · have hval := char_valid_nat c
    refine Or.inr ⟨'u' :: hex4 c.toNat, ?_, ?_⟩
    · simp only [escChar, if_neg hq, if_neg hb, if_neg h8, if_neg h9, if_neg h10,
        if_neg h12, if_neg h13, if_neg h32, if_neg h126, if_pos hbmp]
    · intro rest
      simp only [List.cons_append]
      rw [parseEsc_u]
      simp only [parseHex4_hex4 c.toNat (by omega) rest]
      rw [if_neg (show ¬(55296 ≤ c.toNat ∧ c.toNat ≤ 56319) by omega),
        if_neg (show ¬(56320 ≤ c.toNat ∧ c.toNat ≤ 57343) by omega), Char.ofNat_toNat]
  · have hval := char_valid_nat c
    refine Or.inr ⟨'u' :: (hex4 (55296 + (c.toNat - 65536) / 1024) ++
      ('\\' :: 'u' :: hex4 (56320 + (c.toNat - 65536) % 1024))), ?_, ?_⟩
    · simp only [escChar, if_neg hq, if_neg hb, if_neg h8, if_neg h9, if_neg h10,
        if_neg h12, if_neg h13, if_neg h32, if_neg h126, if_neg hbmp]
      simp [List.append_assoc]
    · intro rest
      simp only [List.cons_append, List.append_assoc]
      rw [parseEsc_u]
      simp only [parseHex4_hex4 (55296 + (c.toNat - 65536) / 1024) (by omega)]
      rw [if_pos (show 55296 ≤ 55296 + (c.toNat - 65536) / 1024 ∧
        55296 + (c.toNat - 65536) / 1024 ≤ 56319 by omega)]
      simp only [List.cons_append, parseHex4_hex4 (56320 + (c.toNat - 65536) % 1024) (by omega)]
      rw [if_pos (show 56320 ≤ 56320 + (c.toNat - 65536) % 1024 ∧
        56320 + (c.toNat - 65536) % 1024 ≤ 57343 by omega)]
      have harg : 65536 + (55296 + (c.toNat - 65536) / 1024 - 55296) * 1024 +
          (56320 + (c.toNat - 65536) % 1024 - 56320) = c.toNat := by
        omega
      rw [harg, Char.ofNat_toNat]

theorem escChar_length (c : Char) : 1 ≤ (escChar c).length := by
  rcases escChar_spec c with ⟨h, _⟩ | ⟨tl, h, _⟩ <;> simp [h]

theorem escapeStr_length (l : List Char) : l.length ≤ (escapeStr l).length := by
  induction l with
  | nil => simp [escapeStr]
  | cons c l ih =>
    simp only [escapeStr, List.length_cons, List.length_append]
    have := escChar_length c
    omega

theorem parseStrBody_escape (l : List Char) :
    ∀ fuel rest, l.length < fuel →
      parseStrBody fuel (escapeStr l ++ ('"' :: rest)) = some (l, rest) := by
  induction l with
  | nil =>
    intro fuel rest hf
    match fuel, hf with
    | f + 1, _ => rfl
  | cons c l ih =>
    intro fuel rest hf
    match fuel, hf with
    | f + 1, hf2 =>
      have hlen : l.length < f := by
        have : (c :: l).length = l.length + 1 := rfl
        omega
      rcases escChar_spec c with ⟨heq, hq, hb, h32⟩ | ⟨tl, heq, hesc⟩
      · simp only [escapeStr, heq, List.cons_append, List.nil_append, List.append_assoc]
        simp only [parseStrBody, if_neg hq, if_neg hb,
          if_neg (show ¬c.toNat < 32 by omega)]
        simp only [ih f rest hlen]
      · simp only [escapeStr, heq, List.cons_append, List.nil_append, List.append_assoc]
        simp only [parseStrBody, if_neg (show ('\\' : Char) ≠ '"' from by decide),
          if_pos rfl]
        rw [hesc (escapeStr l ++ '"' :: rest)]
        simp only [ih f rest hlen]
        simp

/-! ## Shape lemmas for the parser at positive fuel -/

theorem parseVal_null (f : Nat) (rest : List Char) :
    parseVal (f + 1) ('n' :: 'u' :: 'l' :: 'l' :: rest) = some (.null, rest) := rfl

theorem parseVal_true (f : Nat) (rest : List Char) :
    parseVal (f + 1) ('t' :: 'r' :: 'u' :: 'e' :: rest) = some (.bool true, rest) := rfl

theorem parseVal_false (f : Nat) (rest : List Char) :
    parseVal (f + 1) ('f' :: 'a' :: 'l' :: 's' :: 'e' :: rest) = some (.bool false, rest) := rfl

theorem parseVal_quote (f : Nat) (rest : List Char) :
    parseVal (f + 1) ('"' :: rest) =
      (match parseStrBody (rest.length + 1) rest with
       | none => none
       | some (s, r) => some (.str (String.mk s), r)) := rfl

theorem parseVal_minus (f : Nat) (rest : List Char) :
    parseVal (f + 1) ('-' :: rest) =
      (match parseNum rest with
       | none => none
       | some (n, r) => some (.num (-(n : Int)), r)) := rfl

theorem parseVal_lbrack (f : Nat) (rest : List Char) :
    parseVal (f + 1) ('[' :: rest) =
      (match skipWs rest with
       | ']' :: r => some (.arr [], r)
       | _ =>
         match parseElems f rest with
         | none => none
         | some (xs, r) => some (.arr xs, r)) := rfl

theorem parseVal_lbrace (f : Nat) (rest : List Char) :
    parseVal (f + 1) ('{' :: rest) =
      (match skipWs rest with
       | '}' :: r => some (.obj [], r)
       | _ =>
         match parseMembers f rest with
         | none => none
         | some (kvs, r) => some (.obj (collapse kvs), r)) := rfl

theorem parseVal_digit (f : Nat) (c : Char) (tl : List Char) (h : c.isDigit = true) :
    parseVal (f + 1) (c :: tl) =
      (match parseNum (c :: tl) with
       | none => none
       | some (n, r) => some (.num (n : Int), r)) := by
  have hw : isWsChar c = false := isDigit_not_ws h
  rw [parseVal]
  rw [skipWs, hw]
  simp only [Bool.false_eq_true, if_false]
  split
  all_goals rename_i heq
  all_goals (try (cases heq; exact absurd h (by decide)))
  all_goals (cases heq <;> simp [h])

theorem parseElems_succ (f : Nat) (cs : List Char) :
    parseElems (f + 1) cs =
      (match parseVal f cs with
       | none => none
       | some (v, r) =>
         match skipWs r with
         | ',' :: r2 =>
           (match parseElems f r2 with
            | none => none
            | some (vs, r3) => some (v :: vs, r3))
         | ']' :: r2 => some ([v], r2)
         | _ => none) := rfl

theorem parseMembers_succ (f : Nat) (cs : List Char) :
    parseMembers (f + 1) cs =
      (match skipWs cs with
       | '"' :: r0 =>
         (match parseStrBody (r0.length + 1) r0 with
          | none => none
          | some (k, r1) =>
            match skipWs r1 with
            | ':' :: r2 =>
              (match parseVal f r2 with
               | none => none
               | some (v, r3) =>
                 match skipWs r3 with
                 | ',' :: r4 =>
                   (match parseMembers f r4 with
                    | none => none
                    | some (kvs, r5) => some ((String.mk k, v) :: kvs, r5))
                 | '}' :: r4 => some ([(String.mk k, v)], r4)
                 | _ => none)
            | _ => none)
       | _ => none) := rfl

/-! ## Heads and sizes of serialized output -/

theorem sizeV_pos (d : Json) : 1 ≤ sizeV d := by
  cases d <;> simp [sizeV]

theorem serializeVal_head (ind : Nat) (d : Json) :
    ∃ c tl, serializeVal ind d = c :: tl ∧ isWsChar c = false ∧ c ≠ ']' ∧ c ≠ '}' := by
  have hdig : ∀ c : Char, c.isDigit = true → isWsChar c = false ∧ c ≠ ']' ∧ c ≠ '}' := by
    intro c hc
    refine ⟨isDigit_not_ws hc, ?_, ?_⟩ <;> rintro rfl <;> exact absurd hc (by decide)
  cases d with
  | num n =>
    by_cases hn : n < 0
    · refine ⟨'-', natDigits n.natAbs, ?_, by decide⟩
      simp [serializeVal, intChars, hn]
    · obtain ⟨c, cs, heq, hd, _⟩ := natDigits_head n.natAbs
      refine ⟨c, cs, ?_, hdig c hd⟩
      simp [serializeVal, intChars, hn, heq]
  | bool b =>
    cases b
    case true => exact ⟨'t', _, rfl, by decide⟩
    case false => exact ⟨'f', _, rfl, by decide⟩
  | null => exact ⟨'n', _, rfl, by decide⟩
  | str s => exact ⟨'"', _, rfl, by decide⟩
  | arr xs =>
    cases xs
    case nil => exact ⟨'[', _, rfl, by decide⟩
    case cons x xs => exact ⟨'[', _, rfl, by decide⟩
  | obj kvs =>
    cases kvs
    case nil => exact ⟨'{', _, rfl, by decide⟩
    case cons kv kvs => exact ⟨'{', _, rfl, by decide⟩

theorem serializeVal_size (d : Json) : ∀ ind, sizeV d ≤ (serializeVal ind d).length + 1 := by
  induction d using jsonInd with
  | hnull => intro ind; simp [sizeV, serializeVal]
  | hbool b => intro ind; cases b <;> simp [sizeV, serializeVal]
  | hnum n => intro ind; simp [sizeV]
  | hstr s => intro ind; simp [sizeV]
  | harr xs ih =>
    intro ind
    cases xs with
    | nil => simp [sizeV, sizeL, serializeVal]
    | cons x xs =>
      have htail : ∀ l, (∀ y ∈ l, ∀ i, sizeV y ≤ (serializeVal i y).length + 1) →
          ∀ i, sizeL l ≤ (serializeTail i l).length := by
        intro l
        induction l with
        | nil => intro _ _; simp [sizeL, serializeTail]
        | cons y l ihl =>
          intro hy i
          have h1 := hy y (by simp) i
          have h2 := ihl (fun z hz => hy z (by simp [hz])) i
          simp only [sizeL, serializeTail, List.length_cons, List.length_append,
            nlIndent, List.length_replicate]
          omega
      have h1 := ih x (by simp) (ind + 2)
      have h2 := htail xs (fun y hy i => ih y (by simp [hy]) i) (ind + 2)
      simp only [sizeV, sizeL, serializeVal, List.length_cons, List.length_append,
        nlIndent, List.length_replicate, List.length_singleton]
      omega
  | hobj kvs ih =>
    intro ind
    cases kvs with
    | nil => simp [sizeV, sizeM, serializeVal]
    | cons kv kvs =>
      have hmem : ∀ (p : String × Json) i, (∀ j, sizeV p.2 ≤ (serializeVal j p.2).length + 1) →
          sizeV p.2 + 3 ≤ (serializeMember i p).length := by
        intro p i hp
        obtain ⟨k, v⟩ := p
        have h3 : sizeV v ≤ (serializeVal i v).length + 1 := hp i
        simp only [serializeMember, List.length_cons, List.length_append]
        omega
      have htail : ∀ l, (∀ q ∈ l, ∀ i, sizeV q.2 ≤ (serializeVal i q.2).length + 1) →
          ∀ i, sizeM l ≤ (serializeMTail i l).length := by
        intro l
        induction l with
        | nil => intro _ _; simp [sizeM, serializeMTail]
        | cons q l ihl =>
          intro hq i
          have h1 := hmem q i (hq q (by simp))
          have h2 := ihl (fun z hz => hq z (by simp [hz])) i
          simp only [sizeM, serializeMTail, List.length_cons, List.length_append,
            nlIndent, List.length_replicate]
          omega
      have h1 := hmem kv (ind + 2) (ih kv (by simp))
      have h2 := htail kvs (fun q hq i => ih q (by simp [hq]) i) (ind + 2)
      simp only [sizeV, sizeM, serializeVal, List.length_cons, List.length_append,
        nlIndent, List.length_replicate, List.length_singleton]
      omega

theorem string_mk_data (s : String) : String.mk s.data = s := rfl

/-! ## Duplicate-key collapse -/

theorem insertKV_mem {p : String × Json} :
    ∀ {acc k v}, p ∈ insertKV acc k v → p ∈ acc ∨ p = (k, v) := by
  intro acc
  induction acc with
  | nil =>
    intro k v h
    simp [insertKV] at h
    exact Or.inr h
  | cons q rest ih =>
    intro k v h
    obtain ⟨k0, v0⟩ := q
    simp only [insertKV] at h
    by_cases hk : k0 = k
    · rw [if_pos hk] at h
      rcases List.mem_cons.mp h with rfl | h
      · exact Or.inr (by rw [hk])
      · exact Or.inl (by simp [h])
    · rw [if_neg hk] at h
      rcases List.mem_cons.mp h with rfl | h
      · exact Or.inl (by simp)
      · rcases ih h with h | h
        · exact Or.inl (by simp [h])
        · exact Or.inr h

theorem insertKV_keys_sub {x : String} :
    ∀ {acc : List (String × Json)} {k v},
      x ∈ (insertKV acc k v).map Prod.fst → x ∈ acc.map Prod.fst ∨ x = k := by
  intro acc k v h
  rw [List.mem_map] at h
  obtain ⟨p, hp, rfl⟩ := h
  rcases insertKV_mem hp with h | rfl
  · exact Or.inl (List.mem_map_of_mem _ h)
  · exact Or.inr rfl

theorem insertKV_keys_nodup :
    ∀ (acc : List (String × Json)) k v, ((acc.map Prod.fst).Nodup) →
      ((insertKV acc k v).map Prod.fst).Nodup := by
  intro acc
  induction acc with
  | nil => intro k v _; simp [insertKV]
  | cons q rest ih =>
    intro k v h
    obtain ⟨k0, v0⟩ := q
    simp only [List.map_cons, List.nodup_cons] at h
    simp only [insertKV]
    by_cases hk : k0 = k
    · rw [if_pos hk]
      simp only [List.map_cons, List.nodup_cons]
      exact h
    · rw [if_neg hk]
      simp only [List.map_cons, List.nodup_cons]
      refine ⟨?_, ih k v h.2⟩
      intro hmem
      rcases insertKV_keys_sub hmem with hin | rfl
      · exact h.1 hin
      · exact hk rfl

theorem collapse_aux_keys_nodup (l : List (String × Json)) :
    ∀ acc, ((acc.map Prod.fst).Nodup) →
      (((l.foldl (fun a p => insertKV a p.1 p.2) acc).map Prod.fst).Nodup) := by
  induction l with
  | nil => intro acc h; exact h
  | cons p l ih =>
    intro acc h
    exact ih _ (insertKV_keys_nodup acc p.1 p.2 h)

theorem collapse_keys_nodup (l : List (String × Json)) :
    ((collapse l).map Prod.fst).Nodup :=
  collapse_aux_keys_nodup l [] (by simp)

theorem collapse_aux_values (l : List (String × Json)) :
    ∀ acc, (∀ kv ∈ acc, wfV kv.2 = true) → (∀ kv ∈ l, wfV kv.2 = true) →
      ∀ kv ∈ l.foldl (fun a p => insertKV a p.1 p.2) acc, wfV kv.2 = true := by
  induction l with
  | nil => intro acc hacc _ kv hkv; exact hacc kv hkv
  | cons p l ih =>
    intro acc hacc hl kv hkv
    refine ih _ ?_ (fun q hq => hl q (by simp [hq])) kv hkv
    intro q hq
    rcases insertKV_mem hq with h | rfl
    · exact hacc q h
    · exact hl p (by simp)

theorem insertKV_not_mem :
    ∀ (acc : List (String × Json)) k v, k ∉ acc.map Prod.fst →
      insertKV acc k v = acc ++ [(k, v)] := by
  intro acc
  induction acc with
  | nil => intro k v _; rfl
  | cons q rest ih =>
    intro k v h
    obtain ⟨k0, v0⟩ := q
    simp only [List.map_cons, List.mem_cons] at h
    push_neg at h
    have hne : k0 ≠ k := fun hk => h.1 hk.symm
    simp only [insertKV, if_neg hne, List.cons_append]
    rw [ih k v h.2]

theorem collapse_aux_self (l : List (String × Json)) :
    ∀ acc, (((acc ++ l).map Prod.fst).Nodup) →
      l.foldl (fun a p => insertKV a p.1 p.2) acc = acc ++ l := by
  induction l with
  | nil => intro acc _; simp
  | cons p l ih =>
    intro acc h
    obtain ⟨k, v⟩ := p
    have hk : k ∉ acc.map Prod.fst := by
      simp only [List.map_append, List.nodup_append] at h
      intro hin
      exact h.2.2 hin (by simp)
    have hstep : insertKV acc k v = acc ++ [(k, v)] := insertKV_not_mem acc k v hk
    simp only [List.foldl_cons, hstep]
    rw [ih (acc ++ [(k, v)]) (by simpa using h)]
    simp

theorem collapse_self (l : List (String × Json)) (h : ((l.map Prod.fst).Nodup)) :
    collapse l = l := by
  have := collapse_aux_self l [] (by simpa using h)
  simpa using this

/-! ## Well-formedness of parsed values -/

theorem wfL_iff (l : List Json) : wfL l = true ↔ ∀ x ∈ l, wfV x = true := by
  induction l with
  | nil => simp [wfL]
  | cons x l ih => simp [wfL, ih]

theorem wfM_iff (l : List (String × Json)) : wfM l = true ↔ ∀ kv ∈ l, wfV kv.2 = true := by
  induction l with
  | nil => simp [wfM]
  | cons kv l ih => simp [wfM, ih]

theorem parseVal_wf : ∀ fuel,
    (∀ cs v r, parseVal fuel cs = some (v, r) → wfV v = true) ∧
    (∀ cs vs r, parseElems fuel cs = some (vs, r) → wfL vs = true) ∧
    (∀ cs kvs r, parseMembers fuel cs = some (kvs, r) →
      ∀ kv ∈ kvs, wfV kv.2 = true) := by
  intro fuel
  induction fuel with
  | zero =>
    exact ⟨fun cs v r h => Option.noConfusion h, fun cs vs r h => Option.noConfusion h,
      fun cs kvs r h => Option.noConfusion h⟩
  | succ f ih =>
    obtain ⟨ihv, ihe, ihm⟩ := ih
    refine ⟨?_, ?_, ?_⟩
    · intro cs v r h
      rw [parseVal] at h
      split at h
      · cases h; rfl
      · cases h; rfl
      · cases h; rfl
      · split at h
        · exact Option.noConfusion h
        · cases h; rfl
      · split at h
        · exact Option.noConfusion h
        · cases h; rfl
      · split at h
        · cases h; rfl
        · split at h
          · exact Option.noConfusion h
          · rename_i xs r2 heq2
            cases h
            simpa [wfV] using ihe _ _ _ heq2
      · split at h
        · cases h; rfl
        · split at h
          · exact Option.noConfusion h
          · rename_i kvs r2 heq2
            cases h
            simp only [wfV, Bool.and_eq_true, decide_eq_true_eq]
            refine ⟨collapse_keys_nodup kvs, ?_⟩
            rw [wfM_iff]
            exact collapse_aux_values kvs [] (by simp) (ihm _ _ _ heq2)
      · split at h
        · split at h
          · exact Option.noConfusion h
          · cases h; rfl
        · exact Option.noConfusion h
      · exact Option.noConfusion h
    · intro cs vs r h
      rw [parseElems_succ] at h
      split at h
      · exact Option.noConfusion h
      · rename_i v1 r1 heqv
        split at h
        · split at h
          · exact Option.noConfusion h
          · rename_i vs2 r3 heqe
            cases h
            simp only [wfL, Bool.and_eq_true]
            exact ⟨ihv _ _ _ heqv, ihe _ _ _ heqe⟩
        · cases h
          simp only [wfL, Bool.and_eq_true]
          exact ⟨ihv _ _ _ heqv, trivial⟩
        · exact Option.noConfusion h
    · intro cs kvs r h
      rw [parseMembers_succ] at h
      split at h
      · split at h
        · exact Option.noConfusion h
        · split at h
          · split at h
            · exact Option.noConfusion h
            · rename_i v1 r3 heqv
              split at h
              · split at h
                · exact Option.noConfusion h
                · rename_i kvs2 r5 heqm
                  cases h
                  intro kv hkv
                  rcases List.mem_cons.mp hkv with rfl | hkv
                  · exact ihv _ _ _ heqv
                  · exact ihm _ _ _ heqm kv hkv
              · cases h
                intro kv hkv
                rw [List.mem_singleton] at hkv
                subst hkv
                exact ihv _ _ _ heqv
              · exact Option.noConfusion h
          · exact Option.noConfusion h
      · exact Option.noConfusion h

theorem parse_wf (bs : List Char) (d : Json) (h : parse bs = some d) : wfV d = true := by
  unfold parse at h
  split at h
  · cases h
  · rename_i v r heq
    split at h
    · cases h
      exact (parseVal_wf _).1 _ _ _ heq
    · cases h

/-! ## Parsing back serialized output -/

theorem parseElems_serialize (l : List Json) :
    ∀ x : Json,
      (∀ fuel ind rest, wfV x = true → sizeV x ≤ fuel → noDigitHead rest = true →
        parseVal fuel (serializeVal ind x ++ rest) = some (x, rest)) →
      (∀ y ∈ l, ∀ fuel ind rest, wfV y = true → sizeV y ≤ fuel → noDigitHead rest = true →
        parseVal fuel (serializeVal ind y ++ rest) = some (y, rest)) →
      ∀ fuel ind ind2 rest, wfV x = true → wfL l = true →
        sizeV x + sizeL l + 1 ≤ fuel →
        parseElems fuel
          (serializeVal ind x ++
            (serializeTail ind l ++ (nlIndent ind2 ++ (']' :: rest)))) =
          some (x :: l, rest) := by
  induction l with
  | nil =>
    intro x hx _ fuel ind ind2 rest hwx _ hsz
    match fuel, hsz with
    | f + 1, hsz2 =>
      have hsx : sizeV x ≤ f := by
        simp only [sizeL] at hsz2
        omega
      rw [parseElems_succ]
      simp only [serializeTail, List.nil_append]
      simp only [hx f ind (nlIndent ind2 ++ (']' :: rest)) hwx hsx (by rfl)]
      have hsw : skipWs (nlIndent ind2 ++ (']' :: rest)) = ']' :: rest := by
        rw [skipWs_nlIndent]
        exact skipWs_cons_of_neg _ (by decide)
      simp only [hsw]
  | cons y l ih =>
    intro x hx hl fuel ind ind2 rest hwx hwl hsz
    match fuel, hsz with
    | f + 1, hsz2 =>
      have hsx : sizeV x ≤ f := by
        simp only [sizeL] at hsz2
        have := sizeV_pos y
        omega
      have hwy : wfV y = true ∧ wfL l = true := by
        simpa [wfL] using hwl
      rw [parseElems_succ]
      simp only [serializeTail, List.cons_append, List.append_assoc]
      simp only [hx f ind
        (',' :: (nlIndent ind ++ (serializeVal ind y ++
          (serializeTail ind l ++ (nlIndent ind2 ++ (']' :: rest)))))) hwx hsx (by rfl)]
      have hsw : skipWs (',' :: (nlIndent ind ++ (serializeVal ind y ++
          (serializeTail ind l ++ (nlIndent ind2 ++ (']' :: rest)))))) =
          ',' :: (nlIndent ind ++ (serializeVal ind y ++
          (serializeTail ind l ++ (nlIndent ind2 ++ (']' :: rest))))) :=
        skipWs_cons_of_neg _ (by decide)
      simp only [hsw]
      have hdrop : parseElems f (nlIndent ind ++ (serializeVal ind y ++
          (serializeTail ind l ++ (nlIndent ind2 ++ (']' :: rest))))) =
          parseElems f (serializeVal ind y ++
          (serializeTail ind l ++ (nlIndent ind2 ++ (']' :: rest)))) :=
        parseElems_ws f _ _ (nlIndent_ws ind)
      simp only [hdrop]
      rw [ih y (fun fuel ind rest => hl y (by simp) fuel ind rest)
        (fun z hz => hl z (by simp [hz])) f ind ind2 rest hwy.1 hwy.2
        (by simp only [sizeL] at hsz2; have := sizeV_pos x; omega)]

theorem parseMembers_serialize (l : List (String × Json)) :
    ∀ (k : String) (v : Json),
      (∀ fuel ind rest, wfV v = true → sizeV v ≤ fuel → noDigitHead rest = true →
        parseVal fuel (serializeVal ind v ++ rest) = some (v, rest)) →
      (∀ kv ∈ l, ∀ fuel ind rest, wfV kv.2 = true → sizeV kv.2 ≤ fuel →
        noDigitHead rest = true →
        parseVal fuel (serializeVal ind kv.2 ++ rest) = some (kv.2, rest)) →
      ∀ fuel ind ind2 rest, wfV v = true → wfM l = true →
        sizeV v + sizeM l + 1 ≤ fuel →
        parseMembers fuel
          (serializeMember ind (k, v) ++
            (serializeMTail ind l ++ (nlIndent ind2 ++ ('}' :: rest)))) =
          some ((k, v) :: l, rest) := by
  induction l with
  | nil =>
    intro k v hv _ fuel ind ind2 rest hwv _ hsz
    match fuel, hsz with
    | f + 1, hsz2 =>
      have hsv : sizeV v ≤ f := by
        simp only [sizeM] at hsz2
        omega
      rw [parseMembers_succ]
      simp only [serializeMember, serializeMTail, List.cons_append, List.nil_append,
        List.append_assoc]
      have hsw : skipWs ('"' :: (escapeStr k.data ++
          ('"' :: ':' :: ' ' :: (serializeVal ind v ++ (nlIndent ind2 ++ ('}' :: rest)))))) =
          '"' :: (escapeStr k.data ++
          ('"' :: ':' :: ' ' :: (serializeVal ind v ++ (nlIndent ind2 ++ ('}' :: rest))))) :=
        skipWs_cons_of_neg _ (by decide)
      simp only [hsw]
      have hlen : k.data.length <
          (escapeStr k.data ++
            ('"' :: ':' :: ' ' :: (serializeVal ind v ++ (nlIndent ind2 ++ ('}' :: rest))))).length + 1 := by
        have := escapeStr_length k.data
        simp only [List.length_append]
        omega
      have hstr := parseStrBody_escape k.data
        ((escapeStr k.data ++
          ('"' :: ':' :: ' ' :: (serializeVal ind v ++ (nlIndent ind2 ++ ('}' :: rest))))).length + 1)
        (':' :: ' ' :: (serializeVal ind v ++ (nlIndent ind2 ++ ('}' :: rest)))) hlen
      simp only [hstr]
      have hsw2 : skipWs (':' :: ' ' :: (serializeVal ind v ++ (nlIndent ind2 ++ ('}' :: rest)))) =
          ':' :: ' ' :: (serializeVal ind v ++ (nlIndent ind2 ++ ('}' :: rest))) :=
        skipWs_cons_of_neg _ (by decide)
      simp only [hsw2]
      have hspace : parseVal f (' ' :: (serializeVal ind v ++ (nlIndent ind2 ++ ('}' :: rest)))) =
          parseVal f (serializeVal ind v ++ (nlIndent ind2 ++ ('}' :: rest))) :=
        parseVal_ws f [' '] _ (by intro c hc; rw [List.mem_singleton] at hc; subst hc; decide)
      simp only [hspace]
      simp only [hv f ind (nlIndent ind2 ++ ('}' :: rest)) hwv hsv (by rfl)]
      have hsw3 : skipWs (nlIndent ind2 ++ ('}' :: rest)) = '}' :: rest := by
        rw [skipWs_nlIndent]
        exact skipWs_cons_of_neg _ (by decide)
      simp only [hsw3, string_mk_data]
  | cons q l ih =>
    intro k v hv hl fuel ind ind2 rest hwv hwl hsz
    obtain ⟨k2, v2⟩ := q
    match fuel, hsz with
    | f + 1, hsz2 =>
      have hsv : sizeV v ≤ f := by
        simp only [sizeM] at hsz2
        have := sizeV_pos v2
        omega
      have hw2 : wfV v2 = true ∧ wfM l = true := by
        simpa [wfM] using hwl
      rw [parseMembers_succ]
      simp only [serializeMember, serializeMTail, List.cons_append, List.nil_append,
        List.append_assoc]
      have hsw : ∀ tl : List Char, skipWs ('"' :: tl) = '"' :: tl :=
        fun tl => skipWs_cons_of_neg _ (by decide)
      simp only [hsw]
      have hlen : k.data.length <
          (escapeStr k.data ++
            ('"' :: ':' :: ' ' :: (serializeVal ind v ++
              (',' :: (nlIndent ind ++ ('"' :: (escapeStr k2.data ++
                ('"' :: ':' :: ' ' :: (serializeVal ind v2 ++
                  (serializeMTail ind l ++ (nlIndent ind2 ++ ('}' :: rest)))))))))))).length + 1 := by
        have := escapeStr_length k.data
        simp only [List.length_append]
        omega
      have hstr := parseStrBody_escape k.data _
        (':' :: ' ' :: (serializeVal ind v ++
          (',' :: (nlIndent ind ++ ('"' :: (escapeStr k2.data ++
            ('"' :: ':' :: ' ' :: (serializeVal ind v2 ++
              (serializeMTail ind l ++ (nlIndent ind2 ++ ('}' :: rest))))))))))) hlen
      simp only [hstr]
      have hsw2 : ∀ tl : List Char, skipWs (':' :: tl) = ':' :: tl :=
        fun tl => skipWs_cons_of_neg _ (by decide)
      simp only [hsw2]
      have hspace : ∀ tl : List Char, parseVal f (' ' :: tl) = parseVal f tl :=
        fun tl => parseVal_ws f [' '] tl
          (by intro c hc; rw [List.mem_singleton] at hc; subst hc; decide)
      simp only [hspace]
      simp only [hv f ind
        (',' :: (nlIndent ind ++ ('"' :: (escapeStr k2.data ++
          ('"' :: ':' :: ' ' :: (serializeVal ind v2 ++
            (serializeMTail ind l ++ (nlIndent ind2 ++ ('}' :: rest))))))))) hwv hsv (by rfl)]
      have hsw4 : ∀ tl : List Char, skipWs (',' :: tl) = ',' :: tl :=
        fun tl => skipWs_cons_of_neg _ (by decide)
      simp only [hsw4]
      have hdrop : ∀ tl : List Char, parseMembers f (nlIndent ind ++ tl) = parseMembers f tl :=
        fun tl => parseMembers_ws f _ _ (nlIndent_ws ind)
      simp only [hdrop]
      have hrec := ih k2 v2 (fun fuel ind rest => hl (k2, v2) (by simp) fuel ind rest)
        (fun z hz => hl z (by simp [hz])) f ind ind2 rest hw2.1 hw2.2
        (by simp only [sizeM] at hsz2; have := sizeV_pos v; omega)
      simp only [serializeMember, List.cons_append, List.append_assoc] at hrec
      simp only [hrec]

theorem serialize_parseVal (d : Json) :
    ∀ fuel ind rest, wfV d = true → sizeV d ≤ fuel → noDigitHead rest = true →
      parseVal fuel (serializeVal ind d ++ rest) = some (d, rest) := by
  induction d using jsonInd with
  | hnull =>
    intro fuel ind rest _ hsz _
    match fuel, hsz with
    | f + 1, _ =>
      simp only [serializeVal, List.cons_append, List.nil_append]
      exact parseVal_null f rest
  | hbool b =>
    intro fuel ind rest _ hsz _
    match fuel, hsz with
    | f + 1, _ =>
      cases b with
      | true =>
        simp only [serializeVal, List.cons_append, List.nil_append]
        exact parseVal_true f rest
      | false =>
        simp only [serializeVal, List.cons_append, List.nil_append]
        exact parseVal_false f rest
  | hnum n =>
    intro fuel ind rest _ hsz hnd
    match fuel, hsz with
    | f + 1, _ =>
      by_cases hneg : n < 0
      · simp only [serializeVal, intChars, if_pos hneg, List.cons_append]
        rw [parseVal_minus]
        simp only [parseNum_natDigits n.natAbs rest hnd]
        have habs : ((n.natAbs : Int)) = -n := Int.ofNat_natAbs_of_nonpos (le_of_lt hneg)
        rw [habs, neg_neg]
      · simp only [serializeVal, intChars, if_neg hneg]
        obtain ⟨c, cs, heq, hcd, _⟩ := natDigits_head n.natAbs
        rw [heq, List.cons_append]
        rw [parseVal_digit f c _ hcd]
        rw [← List.cons_append, ← heq]
        simp only [parseNum_natDigits n.natAbs rest hnd]
        rw [Int.natAbs_of_nonneg (by omega)]
  | hstr s =>
    intro fuel ind rest _ hsz _
    match fuel, hsz with
    | f + 1, _ =>
      simp only [serializeVal, List.cons_append, List.append_assoc,
        List.singleton_append, List.nil_append]
      rw [parseVal_quote]
      have hlen : s.data.length < (escapeStr s.data ++ ('"' :: rest)).length + 1 := by
        have := escapeStr_length s.data
        simp only [List.length_append]
        omega
      simp only [parseStrBody_escape s.data _ rest hlen]
  | harr xs ih =>
    intro fuel ind rest hwf hsz hnd
    cases xs with
    | nil =>
      match fuel, hsz with
      | f + 1, _ =>
        simp only [serializeVal, List.cons_append, List.nil_append]
        rw [parseVal_lbrack]
        rw [skipWs_cons_of_neg _ (by decide)]
        rfl
    | cons x xs2 =>
      match fuel, hsz with
      | f + 1, hsz2 =>
        have hw : wfV x = true ∧ wfL xs2 = true := by
          simpa [wfV, wfL] using hwf
        have hsize : sizeV x + sizeL xs2 + 1 ≤ f := by
          simp only [sizeV, sizeL] at hsz2
          omega
        simp only [serializeVal, List.cons_append, List.append_assoc,
          List.singleton_append, List.nil_append]
        rw [parseVal_lbrack]
        obtain ⟨c0, tl0, hs0, hw0, hne0, -⟩ := serializeVal_head (ind + 2) x
        have hscrut : skipWs (nlIndent (ind + 2) ++ (serializeVal (ind + 2) x ++
            (serializeTail (ind + 2) xs2 ++ (nlIndent ind ++ (']' :: rest))))) =
            c0 :: (tl0 ++ (serializeTail (ind + 2) xs2 ++ (nlIndent ind ++ (']' :: rest)))) := by
          rw [skipWs_nlIndent, hs0, List.cons_append]
          exact skipWs_cons_of_neg _ hw0
        rw [hscrut]
        split
        · rename_i heqx
          rw [List.cons_eq_cons] at heqx
          exact absurd heqx.1 hne0
        · rw [parseElems_ws f (nlIndent (ind + 2)) _ (nlIndent_ws _)]
          rw [parseElems_serialize xs2 x (ih x (by simp))
            (fun y hy => ih y (by simp [hy])) f (ind + 2) ind rest hw.1 hw.2 hsize]
  | hobj kvs ih =>
    intro fuel ind rest hwf hsz hnd
    cases kvs with
    | nil =>
      match fuel, hsz with
      | f + 1, _ =>
        simp only [serializeVal, List.cons_append, List.nil_append]
        rw [parseVal_lbrace]
        rw [skipWs_cons_of_neg _ (by decide)]
        rfl
    | cons kv l =>
      obtain ⟨k, v⟩ := kv
      match fuel, hsz with
      | f + 1, hsz2 =>
        have hnodup : (((k, v) :: l).map Prod.fst).Nodup := by
          simp only [wfV, Bool.and_eq_true, decide_eq_true_eq] at hwf
          exact hwf.1
        have hw : wfV v = true ∧ wfM l = true := by
          simp only [wfV, Bool.and_eq_true, decide_eq_true_eq, wfM] at hwf
          exact hwf.2
        have hsize : sizeV v + sizeM l + 1 ≤ f := by
          simp only [sizeV, sizeM] at hsz2
          omega
        simp only [serializeVal, List.cons_append, List.append_assoc,
          List.singleton_append, List.nil_append]
        rw [parseVal_lbrace]
        have hscrut : skipWs (nlIndent (ind + 2) ++ (serializeMember (ind + 2) (k, v) ++
            (serializeMTail (ind + 2) l ++ (nlIndent ind ++ ('}' :: rest))))) =
            '"' :: (escapeStr k.data ++ ('"' :: ':' :: ' ' :: serializeVal (ind + 2) v) ++
              (serializeMTail (ind + 2) l ++ (nlIndent ind ++ ('}' :: rest)))) := by
          rw [skipWs_nlIndent]
          simp only [serializeMember, List.cons_append]
          exact skipWs_cons_of_neg _ (by decide)
        rw [hscrut]
        split
        · rename_i heqx
          rw [List.cons_eq_cons] at heqx
          exact absurd heqx.1 (by decide)
        · rw [parseMembers_ws f (nlIndent (ind + 2)) _ (nlIndent_ws _)]
          simp only [parseMembers_serialize l k v (ih (k, v) (by simp))
            (fun q hq => ih q (by simp [hq])) f (ind + 2) ind rest hw.1 hw.2 hsize]
          rw [collapse_self _ hnodup]

theorem parse_serialize {bs : List Char} {d : Json} (h : parse bs = some d) :
    parse (serialize d) = some d := by
  have hwf : wfV d = true := parse_wf bs d h
  show parse (serializeVal 0 d) = some d
  unfold parse
  have hsz : sizeV d ≤ (serializeVal 0 d).length + 1 := serializeVal_size d 0
  have hrt := serialize_parseVal d ((serializeVal 0 d).length + 1) 0 [] hwf hsz (by rfl)
  rw [List.append_nil] at hrt
  rw [hrt]
  rfl

/-! ## Boolean equality agrees with propositional equality -/

theorem beqV_iff : ∀ a b, beqV a b = true ↔ a = b := by
  intro a
  induction a using jsonInd with
  | hnull => intro b; cases b <;> simp [beqV]
  | hbool x => intro b; cases b <;> simp [beqV]
  | hnum x => intro b; cases b <;> simp [beqV]
  | hstr x => intro b; cases b <;> simp [beqV]
  | harr xs ih =>
    intro b
    cases b <;> simp only [beqV] <;> try simp
    case arr ys =>
      constructor
      · intro h
        induction xs generalizing ys with
        | nil => cases ys with | nil => rfl | cons z zs => simp [beqL] at h
        | cons x xs ihl =>
          cases ys with
          | nil => simp [beqL] at h
          | cons y ys =>
            simp only [beqL, Bool.and_eq_true] at h
            have hx : x = y := (ih x (by simp) y).mp h.1
            have : xs = ys := ihl (fun z hz => ih z (by simp [hz])) ys h.2
            simp [hx, this]
      · intro h
        cases h
        induction xs with
        | nil => rfl
        | cons x xs ihl =>
          simp only [beqL, Bool.and_eq_true]
          exact ⟨(ih x (by simp) x).mpr rfl, ihl (fun z hz => ih z (by simp [hz]))⟩
  | hobj kvs ih =>
    intro b
    cases b <;> simp only [beqV] <;> try simp
    case obj ys =>
      constructor
      · intro h
        induction kvs generalizing ys with
        | nil => cases ys with | nil => rfl | cons z zs => simp [beqM] at h
        | cons kv kvs ihl =>
          obtain ⟨k1, v1⟩ := kv
          cases ys with
          | nil => simp [beqM] at h
          | cons y ys =>
            obtain ⟨k2, v2⟩ := y
            simp only [beqM, Bool.and_eq_true] at h
            obtain ⟨⟨hk, hv⟩, ht⟩ := h
            have hv2 : v1 = v2 := (ih (k1, v1) (by simp) v2).mp hv
            have : kvs = ys := ihl (fun z hz => ih z (by simp [hz])) ys ht
            simp only [decide_eq_true_eq] at hk
            simp [hk, hv2, this]
      · intro h
        cases h
        induction kvs with
        | nil => rfl
        | cons kv kvs ihl =>
          obtain ⟨k1, v1⟩ := kv
          simp only [beqM, Bool.and_eq_true]
          exact ⟨⟨by simp, (ih (k1, v1) (by simp) v1).mpr rfl⟩,
            ihl (fun z hz => ih z (by simp [hz]))⟩

/-! ## The flattening loop on well-shaped documents -/

theorem dictGet_obj (kvs : List (String × Json)) (k : String) (dflt : Json) :
    dictGet (Json.obj kvs) k dflt = .ok ((kvs.lookup k).getD dflt) := by
  cases h : kvs.lookup k <;> simp [dictGet, h]

theorem pyIndex_obj_some {kvs : List (String × Json)} {k : String} {v : Json}
    (h : kvs.lookup k = some v) : pyIndex (Json.obj kvs) k = .ok v := by
  simp [pyIndex, h]

theorem flattenInstances_ok (b : Json) (hb : goodBlock b = true) :
    ∀ is, (∀ i ∈ is, isObj i = true) →
      flattenInstances b is = .ok (is.map (mkFlat b)) := by
  obtain ⟨kvs, rfl⟩ : ∃ kvs, b = Json.obj kvs := by
    cases b <;> simp_all [goodBlock, shapedBlock]
  simp only [goodBlock, shapedBlock, hasKeys, Bool.and_eq_true, getKey,
    Option.isSome_iff_exists] at hb
  obtain ⟨-, ⟨⟨t, ht⟩, n, hn⟩, p, hp⟩ := hb
  intro is
  induction is with
  | nil => intro _; rfl
  | cons i is ihis =>
    intro hobjs
    obtain ⟨ikvs, hik⟩ : ∃ ikvs, i = Json.obj ikvs := by
      have := hobjs i (by simp)
      cases i <;> simp_all [isObj]
    subst hik
    simp only [flattenInstances, bind, Except.bind, pyIndex_obj_some ht,
      pyIndex_obj_some hn, pyIndex_obj_some hp, dictGet_obj]
    rw [ihis (fun j hj => hobjs j (by simp [hj]))]
    simp only [List.map_cons, mkFlat, getKey, ht, hn, hp, Option.getD_some]

theorem flattenBlocks_ok (blocks : List Json) (h : ∀ b ∈ blocks, goodBlock b = true) :
    flattenBlocks blocks =
      .ok (blocks.flatMap fun b => (blockInstances b).map (mkFlat b)) := by
  induction blocks with
  | nil => rfl
  | cons b rest ih =>
    have hb := h b (by simp)
    obtain ⟨kvs, rfl⟩ : ∃ kvs, b = Json.obj kvs := by
      cases b <;> simp_all [goodBlock, shapedBlock]
    have hshape : shapedBlock (Json.obj kvs) = true := by
      simp only [goodBlock, Bool.and_eq_true] at hb
      exact hb.1
    simp only [flattenBlocks, bind, Except.bind, dictGet_obj]
    have hinst : ∃ is, (kvs.lookup ("instances")).getD (Json.arr []) = Json.arr is ∧
        blockInstances (Json.obj kvs) = is ∧ ∀ i ∈ is, isObj i = true := by
      simp only [shapedBlock] at hshape
      cases hl : kvs.lookup ("instances") with
      | none => exact ⟨[], by simp [hl], by simp [blockInstances, getKey, hl], by simp⟩
      | some v =>
        rw [hl] at hshape
        cases v with
        | arr is =>
          refine ⟨is, by simp [hl], by simp [blockInstances, getKey, hl], ?_⟩
          simpa [List.all_eq_true] using hshape
        | null => simp at hshape
        | bool x => simp at hshape
        | num x => simp at hshape
        | str x => simp at hshape
        | obj x => simp at hshape
    obtain ⟨is, hval, hbi, hobjs⟩ := hinst
    rw [hval]
    simp only [pyIter]
    rw [flattenInstances_ok (Json.obj kvs) hb is hobjs]
    rw [ih (fun b2 hb2 => h b2 (by simp [hb2]))]
    simp only [List.flatMap_cons, hbi]

theorem truthy_obj_of_lookup {kvs : List (String × Json)} {k : String} {v : Json}
    (h : kvs.lookup k = some v) : truthy (Json.obj kvs) = true := by
  cases kvs with
  | nil => cases h
  | cons q rest => simp [truthy]

theorem get_resources_eq (fetch : Except String (List Char)) (doc : Json)
    (kvs : List (String × Json)) (blocks : List Json)
    (hdl : download_state fetch = some doc) (hdoc : doc = Json.obj kvs)
    (hres : kvs.lookup ("resources") = some (Json.arr blocks)) :
    get_resources fetch = flattenBlocks blocks := by
  subst hdoc
  simp only [get_resources, hdl, truthy_obj_of_lookup hres, if_true]
  simp only [flattenResources, bind, Except.bind, dictGet_obj, hres, Option.getD_some]
  rfl

theorem find_eq_head_filter {α : Type} (p : α → Bool) (l : List α) :
    l.find? p = (l.filter p).head? :=
  (List.filter_head? p l).symm

/-! ## The claims -/

/-- C1: for a downloaded state document whose resources field holds n
blocks shaped per the data model (each a dict carrying the keys type,
name and provider, with instances a list of dicts when present),
get_resources returns exactly the per-(block, instance) flattening in
document order — blocks in stored order, instances within a block in
stored order, each entry carrying the block's type, name and provider,
the instance's attributes as state and the block's depends_on as
dependencies — and the number of entries is the sum of the instance
counts; an empty resources list yields the empty list, never an
error. -/
theorem get_resources_flattens (fetch : Except String (List Char)) (doc : Json)
    (kvs : List (String × Json)) (blocks : List Json)
    (hdl : download_state fetch = some doc) (hdoc : doc = Json.obj kvs)
    (hres : kvs.lookup ("resources") = some (Json.arr blocks))
    (hgood : ∀ b ∈ blocks, goodBlock b = true) :
    get_resources fetch =
      .ok (blocks.flatMap fun b => (blockInstances b).map (mkFlat b)) ∧
    (blocks.flatMap fun b => (blockInstances b).map (mkFlat b)).length =
      (blocks.map fun b => (blockInstances b).length).sum := by
  constructor
  · rw [get_resources_eq fetch doc kvs blocks hdl hdoc hres,
      flattenBlocks_ok blocks hgood]
  · rw [List.length_flatMap]
    simp [Function.comp_def, List.length_map]

/-- Instance of C1 at the specification's end-to-end example
document. -/
theorem get_resources_flattens_witness :
    get_resources (.ok (serialize docW1)) =
      .ok ([blockW1].flatMap fun b => (blockInstances b).map (mkFlat b)) ∧
    ([blockW1].flatMap fun b => (blockInstances b).map (mkFlat b)).length =
      ([blockW1].map fun b => (blockInstances b).length).sum :=
  get_resources_flattens (.ok (serialize docW1)) docW1 kvsW1 [blockW1]
    rfl rfl rfl (by decide)

/-- C2: parsing the serialization of any previously-parsed document
gives back the same document, field for field. -/
theorem parse_after_serialize_id (bs : List Char) (d : Json)
    (h : parse bs = some d) : parse (upload_payload d) = some d :=
  parse_serialize h

/-- Instance of C2 at the example document. -/
theorem parse_after_serialize_id_witness :
    parse (upload_payload docW1) = some docW1 :=
  parse_after_serialize_id (serialize docW1) docW1 rfl

/-- C3: when the blob fetch fails with any exception, or the fetched
bytes fail to parse, download_state returns None and never raises, and
get_resources on that absent document returns the empty list. -/
theorem download_state_fail_soft (fetch : Except String (List Char))
    (h : (∃ e, fetch = .error e) ∨ ∃ bs, fetch = .ok bs ∧ parse bs = none) :
    download_state fetch = none ∧ get_resources fetch = .ok [] := by
  have hdl : download_state fetch = none := by
    rcases h with ⟨e, rfl⟩ | ⟨bs, rfl, hp⟩
    · rfl
    · simp [download_state, hp]
  exact ⟨hdl, by simp [get_resources, hdl]⟩

/-- Instance of C3 at a failed fetch. -/
theorem download_state_fail_soft_witness :
    download_state (Except.error ("NoSuchKey")) = none ∧
    get_resources (Except.error ("NoSuchKey")) = .ok [] :=
  download_state_fail_soft (Except.error ("NoSuchKey")) (Or.inl ⟨_, rfl⟩)

/-- C4: get_resource_by_type returns exactly the subsequence of the
flattened list whose type field equals the argument under exact string
match, preserving order; no match yields the empty list, not an
error. -/
theorem get_resource_by_type_filters (resource_type : String)
    (fetch : Except String (List Char)) (rs : List FlatResource)
    (h : get_resources fetch = .ok rs) :
    get_resource_by_type resource_type fetch =
      .ok (rs.filter fun r => beqV r.rtype (Json.str resource_type)) ∧
    List.Sublist (rs.filter fun r => beqV r.rtype (Json.str resource_type)) rs ∧
    (∀ r ∈ rs.filter fun r => beqV r.rtype (Json.str resource_type),
      r.rtype = Json.str resource_type) ∧
    (∀ r ∈ rs, r.rtype = Json.str resource_type →
      r ∈ rs.filter fun r => beqV r.rtype (Json.str resource_type)) ∧
    ((∀ r ∈ rs, r.rtype ≠ Json.str resource_type) →
      get_resource_by_type resource_type fetch = .ok []) := by
  have h1 : get_resource_by_type resource_type fetch =
      .ok (rs.filter fun r => beqV r.rtype (Json.str resource_type)) := by
    simp [get_resource_by_type, h, Except.map]
  refine ⟨h1, List.filter_sublist rs, ?_, ?_, ?_⟩
  · intro r hr
    exact (beqV_iff _ _).mp (List.mem_filter.mp hr).2
  · intro r hr hrt
    exact List.mem_filter.mpr ⟨hr, (beqV_iff _ _).mpr hrt⟩
  · intro hall
    rw [h1]
    have : (rs.filter fun r => beqV r.rtype (Json.str resource_type)) = [] := by
      rw [List.filter_eq_nil_iff]
      intro r hr hbe
      exact hall r hr ((beqV_iff _ _).mp hbe)
    rw [this]

/-- Instance of C4 at the example document and type bucket. -/
theorem get_resource_by_type_filters_witness :
    get_resource_by_type ("bucket") (.ok (serialize docW1)) =
      .ok (rsW1.filter fun r => beqV r.rtype (Json.str ("bucket"))) ∧
    List.Sublist (rsW1.filter fun r => beqV r.rtype (Json.str ("bucket"))) rsW1 ∧
    (∀ r ∈ rsW1.filter fun r => beqV r.rtype (Json.str ("bucket")),
      r.rtype = Json.str ("bucket")) ∧
    (∀ r ∈ rsW1, r.rtype = Json.str ("bucket") →
      r ∈ rsW1.filter fun r => beqV r.rtype (Json.str ("bucket"))) ∧
    ((∀ r ∈ rsW1, r.rtype ≠ Json.str ("bucket")) →
      get_resource_by_type ("bucket") (.ok (serialize docW1)) = .ok []) :=
  get_resource_by_type_filters ("bucket") (.ok (serialize docW1)) rsW1 rfl

/-- C5: get_resource_by_name returns the first flattened resource in
document order whose name equals the argument (the head of the
filtered list), and None — not an error — when no flattened resource
matches. -/
theorem get_resource_by_name_first (resource_name : String)
    (fetch : Except String (List Char)) (rs : List FlatResource)
    (h : get_resources fetch = .ok rs) :
    get_resource_by_name resource_name fetch =
      .ok ((rs.filter fun r => beqV r.name (Json.str resource_name)).head?) ∧
    ((∀ r ∈ rs, r.name ≠ Json.str resource_name) →
      get_resource_by_name resource_name fetch = .ok none) := by
  have h1 : get_resource_by_name resource_name fetch =
      .ok (rs.find? fun r => beqV r.name (Json.str resource_name)) := by
    simp [get_resource_by_name, h, Except.map]
  constructor
  · rw [h1, find_eq_head_filter]
  · intro hall
    rw [h1]
    have : (rs.find? fun r => beqV r.name (Json.str resource_name)) = none := by
      rw [List.find?_eq_none]
      intro r hr hbe
      exact hall r hr ((beqV_iff _ _).mp hbe)
    rw [this]

/-- Instance of C5 at the duplicate-name document: the result is the
head of the filtered list, the block stored first. -/
theorem get_resource_by_name_first_witness :
    get_resource_by_name ("x") (.ok (serialize docW5)) =
      .ok ((rsW5.filter fun r => beqV r.name (Json.str ("x"))).head?) ∧
    ((∀ r ∈ rsW5, r.name ≠ Json.str ("x")) →
      get_resource_by_name ("x") (.ok (serialize docW5)) = .ok none) :=
  get_resource_by_name_first ("x") (.ok (serialize docW5)) rsW5 rfl

/-- C6: a well-formed byte buffer that parses to an object lacking the
resources key, the outputs key, or both (including the document with
no keys at all) is accepted without error, the missing key acting as
an empty collection: get_resources returns the empty list and
list_outputs the empty mapping. -/
theorem missing_top_keys_empty (bs : List Char) (kvs : List (String × Json))
    (hp : parse bs = some (Json.obj kvs)) :
    (kvs.lookup ("resources") = none → get_resources (.ok bs) = .ok []) ∧
    (kvs.lookup ("outputs") = none → list_outputs (.ok bs) = .ok (Json.obj [])) := by
  have hdl : download_state (.ok bs) = some (Json.obj kvs) := by
    simp [download_state, hp]
  constructor
  · intro hres
    simp only [get_resources, hdl]
    by_cases ht : truthy (Json.obj kvs) = true
    · simp only [ht, if_true]
      simp only [flattenResources, bind, Except.bind, dictGet_obj, hres,
        Option.getD_none]
      rfl
    · simp [ht]
  · intro hout
    simp only [list_outputs, hdl]
    by_cases ht : truthy (Json.obj kvs) = true
    · simp only [ht, if_true, dictGet_obj, hout, Option.getD_none]
    · simp [ht]

/-- Instance of C6 at the two-character document of an empty object. -/
theorem missing_top_keys_empty_witness :
    get_resources (.ok (['{', '}'])) = .ok [] ∧
    list_outputs (.ok (['{', '}'])) = .ok (Json.obj []) :=
  ⟨(missing_top_keys_empty (['{', '}']) [] rfl).1 rfl,
   (missing_top_keys_empty (['{', '}']) [] rfl).2 rfl⟩

/-- C7: when the blob put fails, upload_state returns False and never
raises; on success it returns True; in both cases the in-memory
document the caller passed is unchanged. -/
theorem upload_state_failure_isolation (state_data : Json)
    (put : List Char → Except String Unit) :
    (∀ e, put (upload_payload state_data) = .error e →
      upload_state state_data put = (false, state_data)) ∧
    (∀ u, put (upload_payload state_data) = .ok u →
      upload_state state_data put = (true, state_data)) ∧
    (upload_state state_data put).2 = state_data := by
  refine ⟨?_, ?_, ?_⟩
  · intro e he
    simp [upload_state, he]
  · intro u hu
    simp [upload_state, hu]
  · cases hput : put (upload_payload state_data) <;> simp [upload_state, hput]

/-- Instance of C7 at a denied put. -/
theorem upload_state_failure_isolation_witness :
    upload_state docW1 (fun _ => Except.error ("AccessDenied")) = (false, docW1) :=
  (upload_state_failure_isolation docW1 (fun _ => Except.error ("AccessDenied"))).1
    ("AccessDenied") rfl

/-- C8: for a successfully downloaded document, list_outputs returns
the document's outputs value verbatim — the very mapping stored under
the outputs key, keys, order and metadata included — and the empty
mapping when the document has no outputs key. -/
theorem list_outputs_verbatim (fetch : Except String (List Char))
    (kvs : List (String × Json))
    (hdl : download_state fetch = some (Json.obj kvs)) :
    (∀ out, kvs.lookup ("outputs") = some out → list_outputs fetch = .ok out) ∧
    (kvs.lookup ("outputs") = none → list_outputs fetch = .ok (Json.obj [])) := by
  constructor
  · intro out hout
    simp only [list_outputs, hdl, truthy_obj_of_lookup hout, if_true,
      dictGet_obj, hout, Option.getD_some]
  · intro hout
    simp only [list_outputs, hdl]
    by_cases ht : truthy (Json.obj kvs) = true
    · simp only [ht, if_true, dictGet_obj, hout, Option.getD_none]
    · simp [ht]

/-- Instance of C8 at the example document. -/
theorem list_outputs_verbatim_witness :
    list_outputs (.ok (serialize docW1)) =
      .ok (Json.obj [("logs_arn", Json.obj [("value", Json.str ("arn:x:logs"))])]) :=
  (list_outputs_verbatim (.ok (serialize docW1)) kvsW1 rfl).1
    (Json.obj [("logs_arn", Json.obj [("value", Json.str ("arn:x:logs"))])]) rfl

/-- C9: re-serializing a previously-parsed document for upload
preserves every top-level field, the ones the manager never reads
included: parsing the uploaded bytes finds the same value under every
key. -/
theorem upload_preserves_unknown_fields (bs : List Char) (doc : Json)
    (h : parse bs = some doc) :
    ∀ k, (parse (upload_payload doc)).map (fun d2 => getKey d2 k) =
      some (getKey doc k) := by
  intro k
  rw [show upload_payload doc = serialize doc from rfl, parse_serialize h]
  rfl

/-- Instance of C9 at a document with version, serial and lineage
fields. -/
theorem upload_preserves_unknown_fields_witness :
    (parse (upload_payload docW9)).map (fun d2 => getKey d2 ("serial")) =
      some (getKey docW9 ("serial")) :=
  upload_preserves_unknown_fields (serialize docW9) docW9 rfl ("serial")

/-! ## The KeyError path of get_resources -/

theorem shaped_instances (kvs : List (String × Json))
    (hshape : shapedBlock (Json.obj kvs) = true) :
    (kvs.lookup ("instances")).getD (Json.arr []) =
      Json.arr (blockInstances (Json.obj kvs)) ∧
    ∀ i ∈ blockInstances (Json.obj kvs), isObj i = true := by
  simp only [shapedBlock] at hshape
  cases hl : kvs.lookup ("instances") with
  | none =>
    refine ⟨by simp [hl, blockInstances, getKey], ?_⟩
    simp [blockInstances, getKey, hl]
  | some v =>
    rw [hl] at hshape
    cases v with
    | arr is =>
      refine ⟨by simp [hl, blockInstances, getKey], ?_⟩
      simp only [blockInstances, getKey, hl]
      simpa [List.all_eq_true] using hshape
    | null => simp at hshape
    | bool x => simp at hshape
    | num x => simp at hshape
    | str x => simp at hshape
    | obj x => simp at hshape

theorem flattenInstances_err (kvs : List (String × Json))
    (hk : hasKeys (Json.obj kvs) = false) (i : Json) (is : List Json) :
    ∃ k, k ∈ (["type", "name", "provider"] : List String) ∧
      flattenInstances (Json.obj kvs) (i :: is) = .error (PyErr.keyError k) := by
  cases hlt : kvs.lookup ("type") with
  | none =>
    refine ⟨("type"), by simp, ?_⟩
    simp [flattenInstances, bind, Except.bind, pyIndex, hlt]
  | some t =>
    cases hln : kvs.lookup ("name") with
    | none =>
      refine ⟨("name"), by simp, ?_⟩
      simp [flattenInstances, bind, Except.bind, pyIndex, hlt, hln]
    | some n =>
      cases hlp : kvs.lookup ("provider") with
      | none =>
        refine ⟨("provider"), by simp, ?_⟩
        simp [flattenInstances, bind, Except.bind, pyIndex, hlt, hln, hlp]
      | some p =>
        exfalso
        simp [hasKeys, getKey, hlt, hln, hlp] at hk

theorem flattenBlocks_cases (blocks : List Json)
    (hsh : ∀ b ∈ blocks, shapedBlock b = true) :
    ((∀ b ∈ blocks, blockInstances b ≠ [] → hasKeys b = true) →
      ∃ rs, flattenBlocks blocks = .ok rs) ∧
    ((∃ b ∈ blocks, blockInstances b ≠ [] ∧ hasKeys b = false) →
      ∃ k, k ∈ (["type", "name", "provider"] : List String) ∧
        flattenBlocks blocks = .error (PyErr.keyError k)) := by
  induction blocks with
  | nil =>
    exact ⟨fun _ => ⟨[], rfl⟩, fun h => absurd h (by simp)⟩
  | cons b rest ih =>
    have hbsh := hsh b (by simp)
    obtain ⟨kvs, rfl⟩ : ∃ kvs, b = Json.obj kvs := by
      cases b <;> simp_all [shapedBlock]
    obtain ⟨hval, hobjs⟩ := shaped_instances kvs hbsh
    obtain ⟨ihA, ihB⟩ := ih (fun b2 hb2 => hsh b2 (by simp [hb2]))
    have hhead_ok : hasKeys (Json.obj kvs) = true ∨ blockInstances (Json.obj kvs) = [] →
        ∃ es, flattenInstances (Json.obj kvs) (blockInstances (Json.obj kvs)) = .ok es := by
      intro hc
      rcases hc with hk | he
      · exact ⟨_, flattenInstances_ok (Json.obj kvs)
          (by simp [goodBlock, hbsh, hk]) _ hobjs⟩
      · rw [he]
        exact ⟨[], rfl⟩
    constructor
    · intro hgood
      have hc : hasKeys (Json.obj kvs) = true ∨ blockInstances (Json.obj kvs) = [] := by
        by_cases he : blockInstances (Json.obj kvs) = []
        · exact Or.inr he
        · exact Or.inl (hgood _ (by simp) he)
      obtain ⟨es, hes⟩ := hhead_ok hc
      obtain ⟨rs2, hrs2⟩ := ihA (fun b2 hb2 hne => hgood b2 (by simp [hb2]) hne)
      refine ⟨es ++ rs2, ?_⟩
      simp only [flattenBlocks, bind, Except.bind, dictGet_obj, hval, pyIter, hes, hrs2]
    · intro hex
      by_cases hbad : blockInstances (Json.obj kvs) ≠ [] ∧ hasKeys (Json.obj kvs) = false
      · obtain ⟨hne, hkf⟩ := hbad
        obtain ⟨i, is, his⟩ : ∃ i is, blockInstances (Json.obj kvs) = i :: is := by
          cases hbi : blockInstances (Json.obj kvs) with
          | nil => exact absurd hbi hne
          | cons i is => exact ⟨i, is, rfl⟩
        obtain ⟨k, hkmem, herr⟩ := flattenInstances_err kvs hkf i is
        refine ⟨k, hkmem, ?_⟩
        simp only [flattenBlocks, bind, Except.bind, dictGet_obj, hval, pyIter, his, herr]
      · have hc : hasKeys (Json.obj kvs) = true ∨ blockInstances (Json.obj kvs) = [] := by
          by_cases he : blockInstances (Json.obj kvs) = []
          · exact Or.inr he
          · rcases Bool.eq_false_or_eq_true (hasKeys (Json.obj kvs)) with hkt | hkf
            · exact Or.inl hkt
            · exact absurd ⟨he, hkf⟩ hbad
        obtain ⟨es, hes⟩ := hhead_ok hc
        obtain ⟨b0, hb0, hb0ne, hb0k⟩ := hex
        have hb0rest : b0 ∈ rest := by
          rcases List.mem_cons.mp hb0 with rfl | hr
          · exact absurd ⟨hb0ne, hb0k⟩ hbad
          · exact hr
        obtain ⟨k, hkmem, herr⟩ := ihB ⟨b0, hb0rest, hb0ne, hb0k⟩
        refine ⟨k, hkmem, ?_⟩
        simp only [flattenBlocks, bind, Except.bind, dictGet_obj, hval, pyIter, hes, herr]

/-- C10 (amended): for a downloaded state document whose resource
blocks are shaped per the persisted layout (dicts whose instances
value, when present, is a list of dicts), get_resources returns
normally when every block that has at least one instance carries the
keys type, name and provider; when some block with at least one
instance lacks one of those keys, get_resources raises a KeyError for
one of the three keys, which propagates to the caller.  (A block
lacking the keys but having no instances raises nothing: the key
subscripts sit inside the per-instance loop.) -/
theorem get_resources_keyError_when_instances (fetch : Except String (List Char))
    (doc : Json) (kvs : List (String × Json)) (blocks : List Json)
    (hdl : download_state fetch = some doc) (hdoc : doc = Json.obj kvs)
    (hres : kvs.lookup ("resources") = some (Json.arr blocks))
    (hsh : ∀ b ∈ blocks, shapedBlock b = true) :
    ((∀ b ∈ blocks, blockInstances b ≠ [] → hasKeys b = true) →
      ∃ rs, get_resources fetch = .ok rs) ∧
    ((∃ b ∈ blocks, blockInstances b ≠ [] ∧ hasKeys b = false) →
      ∃ k, k ∈ (["type", "name", "provider"] : List String) ∧
        get_resources fetch = .error (PyErr.keyError k)) := by
  have heq := get_resources_eq fetch doc kvs blocks hdl hdoc hres
  obtain ⟨hA, hB⟩ := flattenBlocks_cases blocks hsh
  constructor
  · intro hgood
    obtain ⟨rs, hrs⟩ := hA hgood
    exact ⟨rs, heq.trans hrs⟩
  · intro hex
    obtain ⟨k, hkmem, herr⟩ := hB hex
    exact ⟨k, hkmem, heq.trans herr⟩

/-- Instance of C10 at a document whose single block has one instance
and none of the identifying keys: a KeyError escapes get_resources. -/
theorem get_resources_keyError_when_instances_witness :
    ∃ k, k ∈ (["type", "name", "provider"] : List String) ∧
      get_resources (.ok (serialize docE10)) = .error (PyErr.keyError k) :=
  (get_resources_keyError_when_instances (.ok (serialize docE10)) docE10 kvsE10
      [Json.obj [("instances", Json.arr [Json.obj []])]] rfl rfl rfl (by decide)).2
    ⟨Json.obj [("instances", Json.arr [Json.obj []])], by simp,
      fun h => List.noConfusion h, rfl⟩

/-- Counterexample to C10 as stated: a downloaded document whose
single resource block lacks the key type (and the other two), yet
get_resources returns normally with the empty list — no lookup error
is raised, because the block has no instances and the subscripts sit
inside the instance loop. -/
theorem get_resources_missing_key_no_raise :
    getKey (Json.obj [("instances", Json.arr [])]) ("type") = none ∧
    get_resources (.ok (serialize docB10)) = .ok [] ∧
    get_resources (.ok (serialize docB10)) ≠ .error (PyErr.keyError ("type")) :=
  ⟨rfl, rfl, fun h => Except.noConfusion
    ((Eq.symm (rfl : get_resources (.ok (serialize docB10)) = .ok [])).trans h)⟩

end TF
